import Mathlib

/-!
Verification of the x-tracker incremental timeline-sync engine
(`skills/public/x-tracker/scripts/`): tweet classification
(`tweet-utils.ts: classifyTweet`), thread-position assignment
(`tweet-utils.ts: assignThreadPositions`), the id-keyed archive merge and
per-account cursor update (`fetch-following-tweets.ts`), the incremental
bookmark page loop (`sync-bookmarks-incremental.ts`), and the rate-limit /
token-refresh transport (`api.ts`).

Modelling conventions:
- TypeScript objects become structures; absent/`undefined` fields become
  `Option`; JavaScript string truthiness (`""` is falsy) is modelled
  explicitly via `strOr` / emptiness tests.
- `Map` objects keyed by id become association lists in insertion order
  (`Map.set` updates in place, appends new keys), or lookup functions for
  the read-only `includes` side-channel maps.
- `Array.prototype.sort` with a string comparator is stable (ES2019); it is
  modelled by a stable insertion sort `sortStable`.  `localeCompare` on the
  ISO-8601 `created_at` strings is modelled as lexicographic comparison of
  the character lists.
- Async control flow is sequential in the scripts, so it is embedded as
  plain state passing; HTTP traffic is an explicit list of scripted events.
-/

namespace XTracker

/-- The five tweet kinds assigned by `classifyTweet`
(原创 = original, 长文 = long form, 线程 = thread, 回复 = reply, 引用 = quote). -/
inductive TweetType where
  | original
  | longForm
  | thread
  | reply
  | quoteOf
deriving DecidableEq, Repr

/-- One entry of `tweet.referenced_tweets` (`{type, id}`). -/
structure Ref where
  type : String
  id : String
deriving DecidableEq, Repr

/-- The `original_tweet` enrichment populated by `classifyTweet`. -/
structure OriginalTweet where
  id : String
  text : String
  author_id : String
  author_username : String
deriving DecidableEq, Repr

/-- A tweet object (raw from the API or enriched by classification).
`note_tweet` models `note_tweet?.text` — `some` means the `note_tweet`
object is present (the object itself is what the code tests for truthiness),
carrying its text. -/
structure Tweet where
  id : String := ""
  text : String := ""
  created_at : Option String := none
  author_id : Option String := none
  in_reply_to_user_id : Option String := none
  conversation_id : Option String := none
  note_tweet : Option String := none
  referenced_tweets : List Ref := []
  full_text : String := ""
  tweet_type : Option TweetType := none
  original_tweet : Option OriginalTweet := none
  thread_position : Option Nat := none
  author_name : Option String := none
  author_username : Option String := none
deriving DecidableEq, Repr

/-- A user object from the `includes.users` side channel. -/
structure User where
  id : String := ""
  username : String := ""
  name : String := ""
deriving DecidableEq, Repr

/-- JavaScript `a || b` for strings (empty string is falsy). -/
def strOr (a b : String) : String := if a = "" then b else a

/-- JS `s.substring(0, n)`, on the character list. -/
def strTake (s : String) (n : Nat) : String := ⟨s.data.take n⟩

/-- Numeric value of a decimal id string (the scripts compare ids with
`BigInt`); non-digit characters contribute their offset from `'0'`. -/
def digitsToNat : List Char → Nat → Nat
  | [], acc => acc
  | c :: cs, acc => digitsToNat cs (acc * 10 + (c.toNat - 48))

/-- Numeric reading of an id string. -/
def idNum (s : String) : Nat := digitsToNat s.data 0

/-- Model of `tweet-utils.ts: classifyTweet`.  The `includes` maps are passed as
lookup functions (`Map.get`). -/
def classifyTweet (tweet : Tweet) (authorId : String)
    (tweetsMap : String → Option Tweet) (usersMap : String → Option User) :
    Tweet :=
  match tweet.referenced_tweets.find? (fun r => r.type == "replied_to") with
  | some r =>
    let fullText := strOr (tweet.note_tweet.getD "") (strOr tweet.text "")
    let replyToUserId := tweet.in_reply_to_user_id.getD ""
    let parentTweet := tweetsMap r.id
    let isSelfReply : Bool :=
      if replyToUserId ≠ "" then replyToUserId == authorId
      else (parentTweet.bind Tweet.author_id) == some authorId
    let tweetType := if isSelfReply then TweetType.thread else TweetType.reply
    let parentAuthorId :=
      strOr replyToUserId (strOr ((parentTweet.bind Tweet.author_id).getD "") "")
    let parentAuthor := usersMap parentAuthorId
    let parentText :=
      strOr ((parentTweet.bind Tweet.note_tweet).getD "")
        (strOr ((parentTweet.map Tweet.text).getD "") "")
    { tweet with
      full_text := fullText
      tweet_type := some tweetType
      original_tweet := some
        { id := r.id
          text := strTake parentText 2000
          author_id := parentAuthorId
          author_username := strOr ((parentAuthor.map User.username).getD "") "" } }
  | none =>
    match tweet.referenced_tweets.find? (fun r => r.type == "quoted") with
    | some q =>
      let fullText := strOr (tweet.note_tweet.getD "") (strOr tweet.text "")
      let quotedTweet := tweetsMap q.id
      let quotedAuthorId := (quotedTweet.bind Tweet.author_id).getD ""
      let quotedAuthor := usersMap quotedAuthorId
      let quotedText :=
        strOr ((quotedTweet.bind Tweet.note_tweet).getD "")
          (strOr ((quotedTweet.map Tweet.text).getD "") "")
      { tweet with
        full_text := fullText
        tweet_type := some TweetType.quoteOf
        original_tweet := some
          { id := q.id
            text := strTake quotedText 2000
            author_id := quotedAuthorId
            author_username := strOr ((quotedAuthor.map User.username).getD "") "" } }
    | none =>
      if tweet.note_tweet.isSome then
        { tweet with
          full_text := strOr (tweet.note_tweet.getD "") (strOr tweet.text "")
          tweet_type := some TweetType.longForm
          original_tweet := none }
      else
        { tweet with
          full_text := strOr (tweet.note_tweet.getD "") (strOr tweet.text "")
          tweet_type := some TweetType.original
          original_tweet := none }

/-! ### Stable sorting

`Array.prototype.sort` is stable; comparators in the scripts only compare
`created_at` strings.  The unique stable sort is modelled by insertion sort:
`insSorted` places `x` before the first element `y` with `le x y`, so an
element keeps its place relative to ties that preceded it in the input. -/

/-- Stable insertion of `x` into `l`: `x` goes before the first `y`
with `le x y = true`. -/
def insSorted (le : α → α → Bool) (x : α) : List α → List α
  | [] => [x]
  | y :: ys => if le x y then x :: y :: ys else y :: insSorted le x ys

/-- Stable sort by the comparator `le`. -/
def sortStable (le : α → α → Bool) : List α → List α
  | [] => []
  | x :: xs => insSorted le x (sortStable le xs)

/-! ### Thread-position assignment (`tweet-utils.ts: assignThreadPositions`)

The JS function groups array elements by truthy `conversation_id`, sorts
each group of size ≥ 2 ascending by `created_at` (stable), and writes
`thread_position = 1, 2, …` onto the grouped objects in place; the array
order itself never changes.  The embedding computes, for each list index,
the position its element receives, and rebuilds the list. -/

/-- Sort key: `created_at ?? ""` as a character list (`localeCompare`). -/
def createdKey (t : Tweet) : List Char := (t.created_at.getD "").data

/-- Comparator of the newest-first archive sort
(`(a, b) => (b.created_at ?? "").localeCompare(a.created_at ?? "")`). -/
def descLe (a b : Tweet) : Bool := decide (createdKey b ≤ createdKey a)

/-- Comparator of the ascending within-thread sort
(`(a, b) => (a.created_at ?? "").localeCompare(b.created_at ?? "")`),
on (original index, tweet) pairs. -/
def ascLeP (p q : Nat × Tweet) : Bool := decide (createdKey p.2 ≤ createdKey q.2)

/-- The grouping key: `conversation_id` with JS truthiness
(`if (!t.conversation_id) continue`). -/
def convKey (t : Tweet) : Option String :=
  match t.conversation_id with
  | some c => if c = "" then none else some c
  | none => none

/-- The conversation group of key `c`: the (index, tweet) pairs of `l`
whose `conversation_id` is `c`, in list order. -/
def convGroup (l : List Tweet) (c : String) : List (Nat × Tweet) :=
  l.enum.filter (fun p => convKey p.2 == some c)

/-- The stable ascending `created_at` sort used inside a group. -/
def sortGroupAsc : List (Nat × Tweet) → List (Nat × Tweet) :=
  sortStable ascLeP

/-- Index of the pair with first component `i` (0-based). -/
def idxOfFst : List (Nat × Tweet) → Nat → Option Nat
  | [], _ => none
  | p :: ps, i => if p.1 == i then some 0 else (idxOfFst ps i).map (· + 1)

/-- The thread position (1-based) that the element at index `i` of `l`,
belonging to conversation `c`, receives; `none` when its group has fewer
than two members. -/
def posIn (l : List Tweet) (c : String) (i : Nat) : Option Nat :=
  if (convGroup l c).length ≤ 1 then none
  else (idxOfFst (sortGroupAsc (convGroup l c)) i).map (· + 1)

/-- The update applied to the element at index `i` of `l`. -/
def applyAt (l : List Tweet) (i : Nat) (t : Tweet) : Tweet :=
  match convKey t with
  | none => t
  | some c =>
    match posIn l c i with
    | none => t
    | some p => { t with thread_position := some p }

/-- Model of `tweet-utils.ts: assignThreadPositions` as a list transformer. -/
def assignThreadPositions (l : List Tweet) : List Tweet :=
  l.mapIdx (fun i t => applyAt l i t)

/-- A tweet with its `thread_position` cleared (for frame statements). -/
def eraseTP (t : Tweet) : Tweet := { t with thread_position := none }

/-- Pointwise congruence for tweets: same conversation key and sort key. -/
def TweetCong (x y : Tweet) : Prop :=
  convKey x = convKey y ∧ createdKey x = createdKey y

/-! ### Archive merge (`fetch-following-tweets.ts` lines 121–131,
`sync-bookmarks-incremental.ts` lines 136–143)

```js
const tweetMap = new Map();
for (const t of existingTweets) tweetMap.set(t.id, t);
for (const t of classifiedFetched) tweetMap.set(t.id, t);
const mergedTweets = Array.from(tweetMap.values()).sort(
  (a, b) => (b.created_at ?? "").localeCompare(a.created_at ?? ""));
assignThreadPositions(mergedTweets);
```

A `Map` keeps insertion order; `set` on an existing key updates the value
in place.  The map is an association list of tweets keyed by `id`. -/

/-- JS `Map.set(b.id, b)` on an id-keyed association list. -/
def setKeyed (m : List Tweet) (b : Tweet) : List Tweet :=
  if m.any (fun t => t.id == b.id) then m.map (fun t => if t.id == b.id then b else t)
  else m ++ [b]

/-- Insert a batch, in order, by `Map.set`. -/
def insertAllKeyed (m : List Tweet) (bs : List Tweet) : List Tweet :=
  bs.foldl setKeyed m

/-- The id keys of an archive, in order. -/
def keys (l : List Tweet) : List String := l.map Tweet.id

/-- Last element of `bs` whose id is `k` (the value `Map.set` leaves for a
key written several times). -/
def lastWith : List Tweet → String → Option Tweet
  | [], _ => none
  | b :: bs, k =>
    match lastWith bs k with
    | some t => some t
    | none => if b.id == k then some b else none

/-- Replace a tweet by the last batch element with its id, if any. -/
def updLast (bs : List Tweet) (t : Tweet) : Tweet := (lastWith bs t.id).getD t

/-- The merge step shared by the followed-accounts and bookmark syncs:
id-keyed dedup (new data wins), newest-first stable sort by `created_at`,
then thread-position assignment over the merged set. -/
def mergeTweets (existing fetched : List Tweet) : List Tweet :=
  assignThreadPositions
    (sortStable descLe (insertAllKeyed (insertAllKeyed [] existing) fetched))

/-! ### The followed-accounts sync loop (`fetch-following-tweets.ts` 82–161)

Per tracked user: fetch (a transport error is caught per user and counted),
classify the fetched page with its own includes maps, merge into that
existing daily tweets of that user, and update `sinceIds[u.id]` to the id of the
first (newest-by-`created_at`) merged tweet.  The persisted
`sinceIds`/`existingData` records are keyed maps from user id. -/

/-- A tracked user from `filtered.json`. -/
structure FUser where
  id : String := ""
  username : String := ""
  name : String := ""
  followers_count : Nat := 0
deriving DecidableEq, Repr

/-- One `apiGet` result page: `data` plus the `includes` side channels. -/
structure FPage where
  data : List Tweet := []
  includes_tweets : List Tweet := []
  includes_users : List User := []
deriving DecidableEq, Repr

/-- The `buildIncludesMaps` tweet map (`Map.set` in order: last wins). -/
def mkTweetLookup (ts : List Tweet) : String → Option Tweet :=
  fun k => ts.reverse.find? (fun t => t.id == k)

/-- The `buildIncludesMaps` user map. -/
def mkUserLookup (us : List User) : String → Option User :=
  fun k => us.reverse.find? (fun u => u.id == k)

/-- Classify a fetched page for user `uid` with the includes maps of that page. -/
def classifyBatch (uid : String) (page : FPage) : List Tweet :=
  page.data.map (fun t =>
    classifyTweet t uid (mkTweetLookup page.includes_tweets)
      (mkUserLookup page.includes_users))

/-- JS `s || null` on an optional string (empty string is falsy). -/
def jsOrNull (o : Option String) : Option String :=
  match o with
  | some s => if s = "" then none else some s
  | none => none

/-- A `results` entry of the daily snapshot file. -/
structure UserEntry where
  user_id : String := ""
  username : String := ""
  name : String := ""
  followers_count : Nat := 0
  tweets : List Tweet := []
  latest_tweet_id : Option String := none
deriving DecidableEq, Repr

/-- The merged tweet list the loop body computes for one user. -/
def accountMerged (entry0 : Option UserEntry) (uid : String) (page : FPage) :
    List Tweet :=
  mergeTweets ((entry0.map UserEntry.tweets).getD []) (classifyBatch uid page)

/-- The cursor (`sinceIds[u.id]`) and data entry one loop iteration leaves
for its own user, as a function of the prior cursor and entry of that user. -/
def perAccount (fetch : String → Except String FPage)
    (since0 : Option String) (entry0 : Option UserEntry) (u : FUser) :
    Option String × Option UserEntry :=
  match fetch u.id with
  | .error _ => (since0, entry0)
  | .ok page =>
    let merged := accountMerged entry0 u.id page
    let latestId :=
      match merged with
      | t :: _ => some t.id
      | [] => jsOrNull since0
    let since2 :=
      match latestId with
      | some lid => if lid = "" then since0 else some lid
      | none => since0
    (since2, some
      { user_id := u.id
        username := u.username
        name := u.name
        followers_count := u.followers_count
        tweets := merged
        latest_tweet_id := latestId })

/-- The loop state: cursors, per-user daily data, counters. -/
structure SyncState where
  sinceIds : String → Option String
  existingData : String → Option UserEntry
  newTweets : Nat
  newUsers : Nat
  errors : Nat

/-- One iteration of the per-user loop (`try/catch` body). -/
def processUser (fetch : String → Except String FPage)
    (st : SyncState) (u : FUser) : SyncState :=
  let newUsersInc := if (jsOrNull (st.sinceIds u.id)).isNone then 1 else 0
  match fetch u.id with
  | .error _ =>
    { st with newUsers := st.newUsers + newUsersInc, errors := st.errors + 1 }
  | .ok page =>
    let merged := accountMerged (st.existingData u.id) u.id page
    let latestId :=
      match merged with
      | t :: _ => some t.id
      | [] => jsOrNull (st.sinceIds u.id)
    let sinceIds2 :=
      match latestId with
      | some lid =>
        if lid = "" then st.sinceIds
        else fun k => if k == u.id then some lid else st.sinceIds k
      | none => st.sinceIds
    { sinceIds := sinceIds2
      existingData := fun k =>
        if k == u.id then
          some
            { user_id := u.id
              username := u.username
              name := u.name
              followers_count := u.followers_count
              tweets := merged
              latest_tweet_id := latestId }
        else st.existingData k
      newTweets := st.newTweets + page.data.length
      newUsers := st.newUsers + newUsersInc
      errors := st.errors }

/-- The whole per-user loop. -/
def runSync (fetch : String → Except String FPage)
    (st0 : SyncState) (users : List FUser) : SyncState :=
  users.foldl (processUser fetch) st0

/-- Returns `true` exactly on a caught transport error. -/
def isErr (r : Except String FPage) : Bool :=
  match r with
  | .error _ => true
  | .ok _ => false

/-- A three-account demo scenario where the fetch of account `B` fails. -/
def demoPage : FPage := { data := [{ id := "9", created_at := some "2026-01-01" }] }

/-- Demo fetch oracle: transport error for `B`, a normal page otherwise. -/
def demoFetch : String → Except String FPage := fun uid =>
  if uid == "B" then Except.error "boom" else Except.ok demoPage

/-- Demo initial sync state: no cursors, no data, zero counters. -/
def demoState : SyncState where
  sinceIds := fun _ => none
  existingData := fun _ => none
  newTweets := 0
  newUsers := 0
  errors := 0

/-- The demo tracked accounts. -/
def demoUsers : List FUser := [{ id := "A" }, { id := "B" }, { id := "C" }]

/-- A page whose newest-by-`created_at` tweet has the smaller id `"13"`
(the other tweet has id `"14"` with an older `created_at`). -/
def cexPage : FPage :=
  { data := [{ id := "13", created_at := some "2026-01-02" },
             { id := "14", created_at := some "2026-01-01" }] }

/-- Fetch oracle for the cursor-regression scenario: account `B` gets a
transport error, every other account gets `cexPage`. -/
def cexFetch : String → Except String FPage := fun uid =>
  if uid == "B" then Except.error "boom" else Except.ok cexPage

/-- Initial state for the cursor-regression scenario: every account
already has cursor `"20"` and no stored daily data. -/
def cexState : SyncState where
  sinceIds := fun _ => some "20"
  existingData := fun _ => none
  newTweets := 0
  newUsers := 0
  errors := 0

/-! ### Incremental bookmark paging (`sync-bookmarks-incremental.ts` 56–95)

Pages are requested while a `next_token` exists; within a page each tweet
is compared against the stored `state.last_id` — on a match the loop stops
collecting and, after the page, stops requesting.  The available server
pages are modelled as a list of pages; an empty tail means no next token. -/

/-- JS `state.last_id && t.id === state.last_id` (truthiness of `last_id`). -/
def knownHit (lastId : Option String) (t : Tweet) : Bool :=
  match lastId with
  | some k => if k = "" then false else t.id == k
  | none => false

/-- Scan one page: collect tweets until the known id is hit; report the hit. -/
def takeNew (lastId : Option String) : List Tweet → List Tweet × Bool
  | [] => ([], false)
  | t :: ts =>
    if knownHit lastId t then ([], true)
    else
      let r := takeNew lastId ts
      (t :: r.1, r.2)

/-- The page loop: returns the collected new bookmarks and the number of
pages requested.  An empty page stops; a hit stops; a missing next token
(empty remainder) stops. -/
def bookmarkPages (lastId : Option String) : List (List Tweet) → List Tweet × Nat
  | [] => ([], 0)
  | p :: rest =>
    if p = [] then ([], 1)
    else
      let r := takeNew lastId p
      if r.2 then (r.1, 1)
      else
        let more := bookmarkPages lastId rest
        (r.1 ++ more.1, more.2 + 1)

/-! ### Rate-aware transport (`api.ts`)

`apiGet`/`apiPost` run against a script of HTTP events: `resp` is a
response of the main request URL (status, `x-rate-limit-reset` header in
epoch seconds, body), `refreshResp` is the token endpoint response
(status, error body, new access/refresh tokens, `expires_in`).  The trace
records main-URL calls, token-endpoint calls, sleeps (ms) and each config
persisted by `saveConfig`, in order.  Time is milliseconds (`Date.now()`);
`ensureValidToken` works in seconds (`Math.floor(Date.now()/1000)`). -/

/-- The persisted OAuth config (fields used by `api.ts`). -/
structure Cfg where
  client_id : String := ""
  access_token : String := ""
  refresh_token : String := ""
  token_expires_at : Int := 0
deriving DecidableEq, Repr

/-- One scripted HTTP exchange. -/
inductive HttpEv where
  | resp (status : Nat) (rateReset : Int) (body : String)
  | refreshResp (status : Nat) (body : String) (accessTok refreshTok : String)
      (expiresIn : Int)
deriving DecidableEq, Repr

/-- Observable side effects of a transport run. -/
structure RunTrace where
  calls : Nat := 0
  refreshCalls : Nat := 0
  sleeps : List Int := []
  saves : List Cfg := []
deriving DecidableEq, Repr

/-- Concatenation of traces (sequencing of effects). -/
def RunTrace.app (a b : RunTrace) : RunTrace :=
  { calls := a.calls + b.calls
    refreshCalls := a.refreshCalls + b.refreshCalls
    sleeps := a.sleeps ++ b.sleeps
    saves := a.saves ++ b.saves }

/-- Result of a transport call. -/
inductive ApiResult where
  | ok (body : String)
  | err (msg : String)
  | outOfScript
deriving DecidableEq, Repr

/-- JS `resp.ok`: status in [200, 300). -/
def httpOk (st : Nat) : Bool := 200 ≤ st && st < 300

/-- The guard of `ensureValidToken`
(`config.token_expires_at && now >= config.token_expires_at - 300`):
a zero (falsy) expiry never triggers a proactive refresh. -/
def needRefresh (cfg : Cfg) (nowSec : Int) : Bool :=
  cfg.token_expires_at != 0 && decide (nowSec ≥ cfg.token_expires_at - 300)

/-- The config after a successful token exchange: both tokens replaced
(the old refresh token is discarded), expiry reset. -/
def refreshedCfg (cfg : Cfg) (atk rtk : String) (exp : Int) : Cfg :=
  { cfg with access_token := atk, refresh_token := rtk, token_expires_at := exp }

/-- Model of `refreshToken` (api.ts 10–41): one POST to the token endpoint; non-2xx
throws `Token refresh failed (status): body`; 2xx replaces both tokens,
sets `token_expires_at := now + expires_in` and persists (`saveConfig`)
before returning.  `none` = the script has no token-endpoint response
here. -/
def refreshTokenM (cfg : Cfg) (nowSec : Int) :
    List HttpEv → Option (Except String Cfg × RunTrace × List HttpEv)
  | HttpEv.refreshResp st bd atk rtk ei :: rest =>
    if httpOk st then
      let cfg2 : Cfg := refreshedCfg cfg atk rtk (nowSec + ei)
      some (Except.ok cfg2, { refreshCalls := 1, saves := [cfg2] }, rest)
    else
      some (Except.error ("Token refresh failed (" ++ toString st ++ "): " ++ bd),
        { refreshCalls := 1 }, rest)
  | _ => none

/-- Model of `ensureValidToken` (api.ts 44–51): refresh when `needRefresh`,
otherwise return the config unchanged with no effects. -/
def ensureValidTokenM (cfg : Cfg) (nowSec : Int) (evs : List HttpEv) :
    Option (Except String Cfg × RunTrace × List HttpEv) :=
  if needRefresh cfg nowSec then refreshTokenM cfg nowSec evs
  else some (Except.ok cfg, {}, evs)

/-- Model of `apiGet` (api.ts 54–99), fuelled by the script length (each loop
iteration consumes at least one event): ensure token validity, issue the
GET; on 429 sleep `min(max(reset*1000 − now, 1000), 900000)` ms and retry
the whole call; on 401 refresh once and retry the bare fetch once, any
non-ok retry failing with `API error status: body`; other non-2xx fail the
same way; 2xx returns the body. -/
def apiGetM : Nat → Cfg → Int → List HttpEv → RunTrace →
    ApiResult × RunTrace × List HttpEv
  | 0, _, _, evs, tr => (ApiResult.outOfScript, tr, evs)
  | fuel + 1, cfg, nowMs, evs, tr =>
    match ensureValidTokenM cfg (nowMs / 1000) evs with
    | none => (ApiResult.outOfScript, tr, evs)
    | some (Except.error msg, d, evs1) => (ApiResult.err msg, tr.app d, evs1)
    | some (Except.ok cfg1, d, evs1) =>
      let tr1 := tr.app d
      match evs1 with
      | HttpEv.resp st reset bd :: evs2 =>
        let tr2 := { tr1 with calls := tr1.calls + 1 }
        if st == 429 then
          let waitMs : Int := min (max (reset * 1000 - nowMs) 1000) 900000
          apiGetM fuel cfg1 (nowMs + waitMs) evs2
            { tr2 with sleeps := tr2.sleeps ++ [waitMs] }
        else if st == 401 then
          match refreshTokenM cfg1 (nowMs / 1000) evs2 with
          | none => (ApiResult.outOfScript, tr2, evs2)
          | some (Except.error msg, d2, evs3) => (ApiResult.err msg, tr2.app d2, evs3)
          | some (Except.ok _, d2, evs3) =>
            match evs3 with
            | HttpEv.resp st2 _ bd2 :: evs4 =>
              let tr3 := { tr2.app d2 with calls := (tr2.app d2).calls + 1 }
              if httpOk st2 then (ApiResult.ok bd2, tr3, evs4)
              else (ApiResult.err ("API error " ++ toString st2 ++ ": " ++ bd2),
                tr3, evs4)
            | _ => (ApiResult.outOfScript, tr2.app d2, evs3)
        else if httpOk st then (ApiResult.ok bd, tr2, evs2)
        else (ApiResult.err ("API error " ++ toString st ++ ": " ++ bd), tr2, evs2)
      | _ => (ApiResult.outOfScript, tr1, evs1)

/-- Run `apiGet` against a finite script. -/
def apiGet (cfg : Cfg) (nowMs : Int) (evs : List HttpEv) :
    ApiResult × RunTrace × List HttpEv :=
  apiGetM (evs.length + 1) cfg nowMs evs {}

/-- Model of `apiPost` (api.ts 145–186): like `apiGet` but with no 429 handling —
only the single 401 refresh-and-retry. -/
def apiPost (cfg : Cfg) (nowMs : Int) (evs : List HttpEv) :
    ApiResult × RunTrace × List HttpEv :=
  match ensureValidTokenM cfg (nowMs / 1000) evs with
  | none => (ApiResult.outOfScript, {}, evs)
  | some (Except.error msg, d, evs1) => (ApiResult.err msg, d, evs1)
  | some (Except.ok cfg1, d, evs1) =>
    match evs1 with
    | HttpEv.resp st _ bd :: evs2 =>
      let tr2 : RunTrace := { d with calls := d.calls + 1 }
      if st == 401 then
        match refreshTokenM cfg1 (nowMs / 1000) evs2 with
        | none => (ApiResult.outOfScript, tr2, evs2)
        | some (Except.error msg, d2, evs3) => (ApiResult.err msg, tr2.app d2, evs3)
        | some (Except.ok _, d2, evs3) =>
          match evs3 with
          | HttpEv.resp st2 _ bd2 :: evs4 =>
            let tr3 := { tr2.app d2 with calls := (tr2.app d2).calls + 1 }
            if httpOk st2 then (ApiResult.ok bd2, tr3, evs4)
            else (ApiResult.err ("API error " ++ toString st2 ++ ": " ++ bd2),
              tr3, evs4)
          | _ => (ApiResult.outOfScript, tr2.app d2, evs3)
      else if httpOk st then (ApiResult.ok bd, tr2, evs2)
      else (ApiResult.err ("API error " ++ toString st ++ ": " ++ bd), tr2, evs2)
    | _ => (ApiResult.outOfScript, d, evs1)

/-! ### Properties and claim theorems -/

theorem classifyTweet_id (tweet : Tweet) (authorId : String)
    (tweetsMap : String → Option Tweet) (usersMap : String → Option User) :
    (classifyTweet tweet authorId tweetsMap usersMap).id = tweet.id := by
  unfold classifyTweet
  split
  · rfl
  · split
    · rfl
    · split <;> rfl

/-- C3: the classifier is total (every item receives some `kind`), and when
the reference list has both a reply-reference and a quote-reference, the
assigned kind is thread or reply — never quote. -/
theorem classify_total_and_tiebreak (tweet : Tweet) (authorId : String)
    (tweetsMap : String → Option Tweet) (usersMap : String → Option User) :
    ((classifyTweet tweet authorId tweetsMap usersMap).tweet_type.isSome = true)
    ∧ ((∃ r ∈ tweet.referenced_tweets, r.type = "replied_to") →
       (∃ q ∈ tweet.referenced_tweets, q.type = "quoted") →
       (classifyTweet tweet authorId tweetsMap usersMap).tweet_type = some TweetType.thread ∨
       (classifyTweet tweet authorId tweetsMap usersMap).tweet_type = some TweetType.reply) := by
  constructor
  · unfold classifyTweet
    split
    · rfl
    · split
      · rfl
      · split <;> rfl
  · intro hr _hq
    have hsome : (tweet.referenced_tweets.find?
        (fun r => r.type == "replied_to")).isSome = true := by
      rw [List.find?_isSome]
      obtain ⟨r, hmem, hty⟩ := hr
      exact ⟨r, hmem, by simp [hty]⟩
    cases h : tweet.referenced_tweets.find? (fun r => r.type == "replied_to") with
    | none => rw [h] at hsome; simp at hsome
    | some r =>
      unfold classifyTweet
      rw [h]
      by_cases hs : ((if (tweet.in_reply_to_user_id.getD "") ≠ "" then
          (tweet.in_reply_to_user_id.getD "") == authorId
        else ((tweetsMap r.id).bind Tweet.author_id) == some authorId) : Bool) = true
      · left; simp only [hs, if_true]
      · right; simp only [Bool.not_eq_true] at hs; simp only [hs, Bool.false_eq_true, if_false]

/-- Witness for `classify_total_and_tiebreak` at a concrete tweet having
both reference types: the result kind is reply (parent author differs). -/
theorem classify_total_and_tiebreak_witness :
    ((classifyTweet
        { id := "5", referenced_tweets := [⟨"replied_to", "1"⟩, ⟨"quoted", "2"⟩] }
        "9" (fun _ => none) (fun _ => none)).tweet_type = some TweetType.thread ∨
     (classifyTweet
        { id := "5", referenced_tweets := [⟨"replied_to", "1"⟩, ⟨"quoted", "2"⟩] }
        "9" (fun _ => none) (fun _ => none)).tweet_type = some TweetType.reply) :=
  (classify_total_and_tiebreak
      { id := "5", referenced_tweets := [⟨"replied_to", "1"⟩, ⟨"quoted", "2"⟩] }
      "9" (fun _ => none) (fun _ => none)).2
    ⟨⟨"replied_to", "1"⟩, by simp, rfl⟩ ⟨⟨"quoted", "2"⟩, by simp, rfl⟩

theorem insSorted_perm (le : α → α → Bool) (x : α) (l : List α) :
    List.Perm (insSorted le x l) (x :: l) := by
  induction l with
  | nil => exact List.Perm.refl _
  | cons y ys ih =>
    unfold insSorted
    split
    · exact List.Perm.refl _
    · exact List.Perm.trans (List.Perm.cons y ih) (List.Perm.swap x y ys)

theorem sortStable_perm (le : α → α → Bool) (l : List α) :
    List.Perm (sortStable le l) l := by
  induction l with
  | nil => exact List.Perm.refl _
  | cons x xs ih =>
    exact List.Perm.trans (insSorted_perm le x (sortStable le xs)) (List.Perm.cons x ih)

theorem mem_sortStable (le : α → α → Bool) (l : List α) (a : α) :
    a ∈ sortStable le l ↔ a ∈ l :=
  (sortStable_perm le l).mem_iff

theorem length_sortStable (le : α → α → Bool) (l : List α) :
    (sortStable le l).length = l.length :=
  (sortStable_perm le l).length_eq

theorem insSorted_pairwise (le : α → α → Bool)
    (htot : ∀ a b, le a b = true ∨ le b a = true)
    (htrans : ∀ a b c, le a b = true → le b c = true → le a c = true)
    (x : α) (l : List α) (hl : List.Pairwise (fun a b => le a b = true) l) :
    List.Pairwise (fun a b => le a b = true) (insSorted le x l) := by
  induction l with
  | nil => simp [insSorted]
  | cons y ys ih =>
    unfold insSorted
    rw [List.pairwise_cons] at hl
    split
    · rename_i hxy
      rw [List.pairwise_cons]
      refine ⟨?_, List.pairwise_cons.mpr hl⟩
      intro z hz
      rcases List.mem_cons.mp hz with hz | hz
      · exact hz ▸ hxy
      · exact htrans x y z hxy (hl.1 z hz)
    · rename_i hxy
      rw [List.pairwise_cons]
      refine ⟨?_, ih hl.2⟩
      intro z hz
      have hz2 : z ∈ x :: ys := (insSorted_perm le x ys).mem_iff.mp hz
      rcases List.mem_cons.mp hz2 with hz2 | hz2
      · rcases htot x y with h | h
        · exact absurd h (by simpa using hxy)
        · rw [hz2]; exact h
      · exact hl.1 z hz2

theorem sortStable_pairwise (le : α → α → Bool)
    (htot : ∀ a b, le a b = true ∨ le b a = true)
    (htrans : ∀ a b c, le a b = true → le b c = true → le a c = true)
    (l : List α) :
    List.Pairwise (fun a b => le a b = true) (sortStable le l) := by
  induction l with
  | nil => simp [sortStable]
  | cons x xs ih => exact insSorted_pairwise le htot htrans x _ ih

/-- Stable-sorting an already sorted list leaves it unchanged. -/
theorem sortStable_eq_of_pairwise (le : α → α → Bool) (l : List α)
    (hl : List.Pairwise (fun a b => le a b = true) l) :
    sortStable le l = l := by
  induction l with
  | nil => rfl
  | cons x xs ih =>
    rw [List.pairwise_cons] at hl
    show insSorted le x (sortStable le xs) = x :: xs
    rw [ih hl.2]
    cases xs with
    | nil => rfl
    | cons y ys =>
      unfold insSorted
      rw [hl.1 y (List.mem_cons_self y ys), if_pos rfl]

theorem insSorted_map (le : α → α → Bool) (f : α → α) (x : α) (l : List α)
    (hc : ∀ b ∈ l, le (f x) (f b) = le x b) :
    insSorted le (f x) (l.map f) = (insSorted le x l).map f := by
  induction l with
  | nil => rfl
  | cons y ys ih =>
    show insSorted le (f x) (f y :: ys.map f) = (insSorted le x (y :: ys)).map f
    unfold insSorted
    rw [hc y (List.mem_cons_self y ys)]
    split
    · rfl
    · rw [ih (fun b hb => hc b (List.mem_cons_of_mem y hb))]
      rfl

/-- The stable sort commutes with a map that preserves all comparisons
among members. -/
theorem sortStable_map (le : α → α → Bool) (f : α → α) (l : List α)
    (hc : ∀ a ∈ l, ∀ b ∈ l, le (f a) (f b) = le a b) :
    sortStable le (l.map f) = (sortStable le l).map f := by
  induction l with
  | nil => rfl
  | cons x xs ih =>
    show insSorted le (f x) (sortStable le (xs.map f)) = _
    rw [ih (fun a ha b hb =>
      hc a (List.mem_cons_of_mem x ha) b (List.mem_cons_of_mem x hb))]
    exact insSorted_map le f x (sortStable le xs) (fun b hb =>
      hc x (List.mem_cons_self x xs) b
        (List.mem_cons_of_mem x ((sortStable_perm le xs).mem_iff.mp hb)))

theorem insSorted_forall2 {β : Type} (le : α → α → Bool) (le₂ : β → β → Bool)
    (R : α → β → Prop)
    (hR : ∀ a b a₂ b₂, R a a₂ → R b b₂ → le a b = le₂ a₂ b₂)
    (x : α) (x₂ : β) (hx : R x x₂) :
    ∀ {l l₂}, List.Forall₂ R l l₂ →
      List.Forall₂ R (insSorted le x l) (insSorted le₂ x₂ l₂) := by
  intro l l₂ h
  induction h with
  | nil => exact List.Forall₂.cons hx List.Forall₂.nil
  | cons hab hrest ih =>
    rename_i a b as bs
    show List.Forall₂ R (insSorted le x (a :: as)) (insSorted le₂ x₂ (b :: bs))
    unfold insSorted
    rw [← hR x a x₂ b hx hab]
    split
    · exact List.Forall₂.cons hx (List.Forall₂.cons hab hrest)
    · exact List.Forall₂.cons hab ih

/-- Stable sorts of pointwise related lists are pointwise related, when the
relation determines all comparisons. -/
theorem sortStable_forall2 {β : Type} (le : α → α → Bool) (le₂ : β → β → Bool)
    (R : α → β → Prop)
    (hR : ∀ a b a₂ b₂, R a a₂ → R b b₂ → le a b = le₂ a₂ b₂) :
    ∀ {l l₂}, List.Forall₂ R l l₂ →
      List.Forall₂ R (sortStable le l) (sortStable le₂ l₂) := by
  intro l l₂ h
  induction h with
  | nil => exact List.Forall₂.nil
  | cons hab hrest ih =>
    exact insSorted_forall2 le le₂ R hR _ _ hab ih

theorem descLe_total : ∀ a b : Tweet, descLe a b = true ∨ descLe b a = true := by
  intro a b
  simp only [descLe, decide_eq_true_eq]
  exact le_total _ _

theorem descLe_trans : ∀ a b c : Tweet,
    descLe a b = true → descLe b c = true → descLe a c = true := by
  intro a b c hab hbc
  simp only [descLe, decide_eq_true_eq] at hab hbc ⊢
  exact le_trans hbc hab

theorem ascLeP_total : ∀ p q : Nat × Tweet, ascLeP p q = true ∨ ascLeP q p = true := by
  intro p q
  simp only [ascLeP, decide_eq_true_eq]
  exact le_total _ _

theorem ascLeP_trans : ∀ p q r : Nat × Tweet,
    ascLeP p q = true → ascLeP q r = true → ascLeP p r = true := by
  intro p q r hpq hqr
  simp only [ascLeP, decide_eq_true_eq] at hpq hqr ⊢
  exact le_trans hpq hqr

theorem length_sortGroupAsc (m : List (Nat × Tweet)) :
    (sortGroupAsc m).length = m.length :=
  length_sortStable ascLeP m

theorem mem_sortGroupAsc (m : List (Nat × Tweet)) (p : Nat × Tweet) :
    p ∈ sortGroupAsc m ↔ p ∈ m :=
  mem_sortStable ascLeP m p

theorem perm_sortGroupAsc (m : List (Nat × Tweet)) :
    List.Perm (sortGroupAsc m) m :=
  sortStable_perm ascLeP m

theorem eraseTP_applyAt (l : List Tweet) (i : Nat) (t : Tweet) :
    eraseTP (applyAt l i t) = eraseTP t := by
  unfold applyAt
  split
  · rfl
  · split
    · rfl
    · rfl

theorem convKey_applyAt (l : List Tweet) (i : Nat) (t : Tweet) :
    convKey (applyAt l i t) = convKey t := by
  unfold applyAt
  split
  · rfl
  · split
    · rfl
    · rename_i c _ p _
      show convKey { t with thread_position := some p } = convKey t
      unfold convKey
      rfl

theorem createdKey_applyAt (l : List Tweet) (i : Nat) (t : Tweet) :
    createdKey (applyAt l i t) = createdKey t := by
  unfold applyAt
  split
  · rfl
  · split
    · rfl
    · rfl

theorem id_applyAt (l : List Tweet) (i : Nat) (t : Tweet) :
    (applyAt l i t).id = t.id := by
  unfold applyAt
  split
  · rfl
  · split
    · rfl
    · rfl

theorem length_assign (l : List Tweet) :
    (assignThreadPositions l).length = l.length := by
  simp [assignThreadPositions]

theorem get_assign (l : List Tweet) (i : Nat) (h : i < l.length) :
    (assignThreadPositions l).get ⟨i, by rw [length_assign]; exact h⟩
      = applyAt l i (l.get ⟨i, h⟩) := by
  simp [assignThreadPositions]

theorem enum_assign (l : List Tweet) :
    (assignThreadPositions l).enum
      = l.enum.map (fun p => (p.1, applyAt l p.1 p.2)) := by
  apply List.ext_getElem
  · simp [length_assign]
  · intro n h1 h2
    rw [List.getElem_enum]
    rw [List.getElem_map, List.getElem_enum]
    have hn : n < l.length := by
      simpa [length_assign] using h1
    simp [assignThreadPositions]

/-- Filter commutes with a map that preserves the predicate on members. -/
theorem filter_map_comm {γ : Type} (l : List γ) (f : γ → γ) (p : γ → Bool)
    (h : ∀ a ∈ l, p (f a) = p a) :
    (l.map f).filter p = (l.filter p).map f := by
  induction l with
  | nil => rfl
  | cons x xs ih =>
    simp only [List.map_cons, List.filter_cons]
    rw [h x (List.mem_cons_self x xs)]
    split
    · rw [List.map_cons, ih (fun a ha => h a (List.mem_cons_of_mem x ha))]
    · exact ih (fun a ha => h a (List.mem_cons_of_mem x ha))

theorem convGroup_assign (l : List Tweet) (c : String) :
    convGroup (assignThreadPositions l) c
      = (convGroup l c).map (fun p => (p.1, applyAt l p.1 p.2)) := by
  unfold convGroup
  rw [enum_assign]
  exact filter_map_comm l.enum (fun p => (p.1, applyAt l p.1 p.2))
    (fun p => convKey p.2 == some c)
    (fun p _ => by simp [convKey_applyAt])

theorem nodup_fst_convGroup (l : List Tweet) (c : String) :
    ((convGroup l c).map Prod.fst).Nodup := by
  have hsub : List.Sublist ((convGroup l c).map Prod.fst) (l.enum.map Prod.fst) :=
    List.Sublist.map Prod.fst (List.filter_sublist l.enum)
  have : (l.enum.map Prod.fst).Nodup := by
    rw [List.enum_map_fst]
    exact List.nodup_range l.length
  exact List.Nodup.sublist hsub this

theorem idxOfFst_self (m : List (Nat × Tweet)) (hn : (m.map Prod.fst).Nodup) :
    ∀ (j : Nat) (hj : j < m.length), idxOfFst m (m.get ⟨j, hj⟩).1 = some j := by
  induction m with
  | nil => intro j hj; exact absurd hj (by simp)
  | cons x xs ih =>
    intro j hj
    rw [List.map_cons, List.nodup_cons] at hn
    match j with
    | 0 => simp [idxOfFst]
    | j + 1 =>
      have hj2 : j < xs.length := by simpa using hj
      have hmem : ((x :: xs).get ⟨j + 1, hj⟩).1 ∈ xs.map Prod.fst := by
        show (xs.get ⟨j, hj2⟩).1 ∈ xs.map Prod.fst
        exact List.mem_map_of_mem Prod.fst (xs.get_mem j hj2)
      have hne : (x.1 == ((x :: xs).get ⟨j + 1, hj⟩).1) = false := by
        rw [beq_eq_false_iff_ne]
        intro he
        exact hn.1 (he ▸ hmem)
      show idxOfFst (x :: xs) ((x :: xs).get ⟨j + 1, hj⟩).1 = some (j + 1)
      unfold idxOfFst
      rw [hne]
      simp only [Bool.false_eq_true, if_false]
      rw [show ((x :: xs).get ⟨j + 1, hj⟩) = xs.get ⟨j, hj2⟩ from rfl]
      rw [ih hn.2 j hj2]
      rfl

theorem idxOfFst_congr {m m₂ : List (Nat × Tweet)}
    (h : List.Forall₂ (fun p q => p.1 = q.1) m m₂) (i : Nat) :
    idxOfFst m i = idxOfFst m₂ i := by
  induction h with
  | nil => rfl
  | cons hpq hrest ih =>
    unfold idxOfFst
    rw [hpq, ih]

theorem forall2_filter {γ δ : Type} {R : γ → δ → Prop} {p : γ → Bool} {q : δ → Bool}
    (hpq : ∀ a b, R a b → p a = q b) :
    ∀ {l : List γ} {l₂ : List δ}, List.Forall₂ R l l₂ →
      List.Forall₂ R (l.filter p) (l₂.filter q) := by
  intro l l₂ h
  induction h with
  | nil => exact List.Forall₂.nil
  | cons hab hrest ih =>
    rename_i a b as bs
    simp only [List.filter_cons]
    rw [← hpq a b hab]
    split
    · exact List.Forall₂.cons hab ih
    · exact ih

theorem forall2_enum_of_pointwise {l l₂ : List Tweet}
    (hlen : l₂.length = l.length)
    (hpt : ∀ (i : Nat) (h : i < l.length) (h₂ : i < l₂.length),
      TweetCong (l₂.get ⟨i, h₂⟩) (l.get ⟨i, h⟩)) :
    List.Forall₂ (fun p q => p.1 = q.1 ∧ TweetCong p.2 q.2) l₂.enum l.enum := by
  rw [List.forall₂_iff_get]
  constructor
  · simp [hlen]
  · intro i h1 h2
    have hi2 : i < l₂.length := by simpa using h1
    have hi : i < l.length := by simpa using h2
    have e1 : l₂.enum.get ⟨i, h1⟩ = (i, l₂.get ⟨i, hi2⟩) := by
      simp [List.get_eq_getElem, List.getElem_enum]
    have e2 : l.enum.get ⟨i, h2⟩ = (i, l.get ⟨i, hi⟩) := by
      simp [List.get_eq_getElem, List.getElem_enum]
    rw [e1, e2]
    exact ⟨rfl, hpt i hi hi2⟩

theorem forall2_convGroup {l l₂ : List Tweet}
    (hlen : l₂.length = l.length)
    (hpt : ∀ (i : Nat) (h : i < l.length) (h₂ : i < l₂.length),
      TweetCong (l₂.get ⟨i, h₂⟩) (l.get ⟨i, h⟩)) (c : String) :
    List.Forall₂ (fun p q => p.1 = q.1 ∧ TweetCong p.2 q.2)
      (convGroup l₂ c) (convGroup l c) :=
  forall2_filter
    (fun a b hab => by
      show (convKey a.2 == some c) = (convKey b.2 == some c)
      rw [hab.2.1])
    (forall2_enum_of_pointwise hlen hpt)

/-- The function `posIn` only depends on positions, conversation keys and sort keys. -/
theorem posIn_congr {l l₂ : List Tweet}
    (hlen : l₂.length = l.length)
    (hpt : ∀ (i : Nat) (h : i < l.length) (h₂ : i < l₂.length),
      TweetCong (l₂.get ⟨i, h₂⟩) (l.get ⟨i, h⟩)) (c : String) (i : Nat) :
    posIn l₂ c i = posIn l c i := by
  have hg := forall2_convGroup hlen hpt c
  have hglen : (convGroup l₂ c).length = (convGroup l c).length := hg.length_eq
  have hs : List.Forall₂ (fun p q => p.1 = q.1 ∧ TweetCong p.2 q.2)
      (sortGroupAsc (convGroup l₂ c)) (sortGroupAsc (convGroup l c)) := by
    refine sortStable_forall2 ascLeP ascLeP _ ?_ hg
    intro a b a₂ b₂ ha hb
    show decide (createdKey a.2 ≤ createdKey b.2)
      = decide (createdKey a₂.2 ≤ createdKey b₂.2)
    rw [ha.2.2, hb.2.2]
  have hidx : idxOfFst (sortGroupAsc (convGroup l₂ c)) i
      = idxOfFst (sortGroupAsc (convGroup l c)) i :=
    idxOfFst_congr (List.Forall₂.imp (fun _ _ hab => hab.1) hs) i
  unfold posIn
  rw [hglen, hidx]

theorem mem_convGroup {l : List Tweet} {c : String} {p : Nat × Tweet}
    (h : p ∈ convGroup l c) : convKey p.2 = some c := by
  have := (List.mem_filter.mp h).2
  exact eq_of_beq this

/-- C10 (frame): the pass rewrites each element to a copy differing at most
in `thread_position`, and an element with no (truthy) `conversation_id`, or
whose conversation group in the input has exactly one member, is returned
unchanged — an existing `thread_position` on it is not cleared. -/
theorem assign_frame_effect (l : List Tweet) :
    List.Forall₂ (fun t2 t => eraseTP t2 = eraseTP t) (assignThreadPositions l) l
    ∧ ∀ (i : Nat) (h : i < l.length),
        (convKey (l.get ⟨i, h⟩) = none ∨
         ∃ c, convKey (l.get ⟨i, h⟩) = some c ∧ (convGroup l c).length = 1) →
        (assignThreadPositions l).get ⟨i, by rw [length_assign]; exact h⟩
          = l.get ⟨i, h⟩ := by
  constructor
  · rw [List.forall₂_iff_get]
    refine ⟨length_assign l, ?_⟩
    intro i h1 h2
    rw [get_assign l i h2]
    exact eraseTP_applyAt l i _
  · intro i h hcond
    rw [get_assign l i h]
    rcases hcond with hnone | ⟨c, hc, hone⟩
    · simp only [applyAt, hnone]
    · have hpn : posIn l c i = none := by
        unfold posIn
        rw [if_pos (by rw [hone])]
      simp only [applyAt, hc, hpn]

/-- Witness for `assign_frame_effect`: a single-member conversation keeps
its pre-existing `thread_position`. -/
theorem assign_frame_effect_witness :
    (assignThreadPositions
        [{ id := "1", conversation_id := some "c9", thread_position := some 7 }]).get
      ⟨0, by rw [length_assign]; decide⟩
      = { id := "1", conversation_id := some "c9", thread_position := some 7 } :=
  (assign_frame_effect
      [{ id := "1", conversation_id := some "c9", thread_position := some 7 }]).2
    0 (by decide) (Or.inr ⟨"c9", by decide, by decide⟩)

/-- C4: after the pass, a conversation group of size `n ≥ 2`, read in
ascending `created_at` order, carries thread positions exactly
`some 1, …, some n`; a group of size 1 is not touched by the pass. -/
theorem assign_thread_positions_correct (l : List Tweet) (c : String) :
    (2 ≤ (convGroup l c).length →
      (sortGroupAsc (convGroup (assignThreadPositions l) c)).map
          (fun p => p.2.thread_position)
        = (List.range (convGroup l c).length).map (fun j => some (j + 1)))
    ∧ ((convGroup l c).length = 1 →
      convGroup (assignThreadPositions l) c = convGroup l c) := by
  constructor
  · intro h2
    rw [convGroup_assign]
    have hcmp : ∀ p ∈ convGroup l c, ∀ q ∈ convGroup l c,
        ascLeP ((fun p => (p.1, applyAt l p.1 p.2)) p)
            ((fun p => (p.1, applyAt l p.1 p.2)) q)
          = ascLeP p q := by
      intro p _ q _
      show decide (createdKey (applyAt l p.1 p.2) ≤ createdKey (applyAt l q.1 q.2))
        = decide (createdKey p.2 ≤ createdKey q.2)
      rw [createdKey_applyAt, createdKey_applyAt]
    have hsmap : sortGroupAsc ((convGroup l c).map (fun p => (p.1, applyAt l p.1 p.2)))
        = (sortGroupAsc (convGroup l c)).map (fun p => (p.1, applyAt l p.1 p.2)) :=
      sortStable_map ascLeP _ (convGroup l c) hcmp
    rw [hsmap]
    apply List.ext_getElem
    · simp [length_sortGroupAsc]
    · intro j hj1 hj2
      have hjg : j < (convGroup l c).length := by simpa using hj2
      have hjs : j < (sortGroupAsc (convGroup l c)).length := by
        rw [length_sortGroupAsc]; exact hjg
      rw [List.getElem_map, List.getElem_map, List.getElem_map, List.getElem_range]
      have hmem : (sortGroupAsc (convGroup l c))[j] ∈ convGroup l c :=
        (mem_sortGroupAsc _ _).mp (List.getElem_mem hjs)
      have hck : convKey ((sortGroupAsc (convGroup l c))[j]).2 = some c :=
        mem_convGroup hmem
      have hnod : ((sortGroupAsc (convGroup l c)).map Prod.fst).Nodup :=
        ((perm_sortGroupAsc (convGroup l c)).map Prod.fst).nodup_iff.mpr
          (nodup_fst_convGroup l c)
      have hidx := idxOfFst_self (sortGroupAsc (convGroup l c)) hnod j hjs
      rw [List.get_eq_getElem] at hidx
      have hpos : posIn l c ((sortGroupAsc (convGroup l c))[j]).1 = some (j + 1) := by
        unfold posIn
        rw [if_neg (by omega), hidx]
        rfl
      show (applyAt l ((sortGroupAsc (convGroup l c))[j]).1
          ((sortGroupAsc (convGroup l c))[j]).2).thread_position = some (j + 1)
      simp only [applyAt, hck, hpos]
  · intro hone
    rw [convGroup_assign]
    have : ∀ p ∈ convGroup l c, (p.1, applyAt l p.1 p.2) = p := by
      intro p hp
      have hck : convKey p.2 = some c := mem_convGroup hp
      have hnone : posIn l c p.1 = none := by
        unfold posIn
        rw [if_pos (by rw [hone])]
      show (p.1, applyAt l p.1 p.2) = (p.1, p.2)
      simp only [applyAt, hck, hnone]
    rw [List.map_congr_left this]
    exact List.map_id (convGroup l c)

/-- Witness for `assign_thread_positions_correct`: a conversation of two
tweets gets positions `[some 1, some 2]` in ascending `created_at` order. -/
theorem assign_thread_positions_correct_witness :
    (sortGroupAsc (convGroup (assignThreadPositions
        [{ id := "2", conversation_id := some "c1", created_at := some "2024-01-02" },
         { id := "1", conversation_id := some "c1", created_at := some "2024-01-01" }]) "c1")).map
        (fun p => p.2.thread_position)
      = [some 1, some 2] :=
  ((assign_thread_positions_correct
      [{ id := "2", conversation_id := some "c1", created_at := some "2024-01-02" },
       { id := "1", conversation_id := some "c1", created_at := some "2024-01-01" }] "c1").1
    (by decide)).trans (by decide)

theorem keys_setKeyed_replace (m : List Tweet) (b : Tweet) :
    keys (m.map (fun t => if t.id == b.id then b else t)) = keys m := by
  unfold keys
  rw [List.map_map]
  apply List.map_congr_left
  intro t _
  show (if t.id == b.id then b else t).id = t.id
  split
  · rename_i hbeq
    exact (eq_of_beq hbeq).symm
  · rfl

theorem nodup_keys_setKeyed (m : List Tweet) (b : Tweet)
    (h : (keys m).Nodup) : (keys (setKeyed m b)).Nodup := by
  unfold setKeyed
  split
  · rw [keys_setKeyed_replace]; exact h
  · rename_i hany
    have hne : ∀ t ∈ m, ¬ t.id = b.id := by
      intro t htm he
      exact hany (List.any_eq_true.mpr ⟨t, htm, by simp [he]⟩)
    unfold keys
    rw [List.map_append, List.nodup_append]
    refine ⟨h, List.nodup_singleton b.id, ?_⟩
    intro k hk hk2
    obtain ⟨t, htm, hid⟩ := List.mem_map.mp hk
    have hkb : k = b.id := by simpa using hk2
    exact hne t htm (by rw [hid, hkb])

theorem nodup_keys_insertAll (bs : List Tweet) :
    ∀ m : List Tweet, (keys m).Nodup → (keys (insertAllKeyed m bs)).Nodup := by
  induction bs with
  | nil => intro m h; exact h
  | cons b bs ih =>
    intro m h
    exact ih (setKeyed m b) (nodup_keys_setKeyed m b h)

theorem insertAll_of_disjoint (bs : List Tweet) :
    ∀ acc : List Tweet, (keys (acc ++ bs)).Nodup →
      insertAllKeyed acc bs = acc ++ bs := by
  induction bs with
  | nil => intro acc _; simp [insertAllKeyed]
  | cons b bs ih =>
    intro acc h
    have hnotin : ∀ t ∈ acc, (t.id == b.id) = false := by
      intro t ht
      rw [beq_eq_false_iff_ne]
      intro he
      unfold keys at h
      rw [List.map_append, List.nodup_append] at h
      exact h.2.2 (List.mem_map_of_mem Tweet.id ht)
        (by rw [List.map_cons]; exact he ▸ List.mem_cons_self b.id (bs.map Tweet.id))
    have hset : setKeyed acc b = acc ++ [b] := by
      unfold setKeyed
      rw [if_neg]
      rw [List.any_eq_true]
      push_neg
      intro t ht
      simp [hnotin t ht]
    show insertAllKeyed (setKeyed acc b) bs = acc ++ b :: bs
    rw [hset]
    have h2 : (keys ((acc ++ [b]) ++ bs)).Nodup := by
      rw [List.append_assoc]
      exact h
    rw [ih (acc ++ [b]) h2, List.append_assoc]
    rfl

theorem insertAll_nil_of_nodup (m : List Tweet) (h : (keys m).Nodup) :
    insertAllKeyed [] m = m :=
  insertAll_of_disjoint m [] (by simpa using h)

theorem mem_keys_setKeyed_self (m : List Tweet) (b : Tweet) :
    b.id ∈ keys (setKeyed m b) := by
  unfold setKeyed
  split
  · rename_i hany
    rw [keys_setKeyed_replace]
    rw [List.any_eq_true] at hany
    obtain ⟨t, htm, hid⟩ := hany
    exact (eq_of_beq hid) ▸ List.mem_map_of_mem Tweet.id htm
  · unfold keys
    rw [List.map_append]
    exact List.mem_append_right _ (by simp)

theorem mem_keys_setKeyed_mono (m : List Tweet) (b : Tweet) (k : String)
    (h : k ∈ keys m) : k ∈ keys (setKeyed m b) := by
  unfold setKeyed
  split
  · rw [keys_setKeyed_replace]; exact h
  · unfold keys
    rw [List.map_append]
    exact List.mem_append_left _ h

theorem mem_keys_insertAll_mono (bs : List Tweet) :
    ∀ (m : List Tweet) (k : String), k ∈ keys m → k ∈ keys (insertAllKeyed m bs) := by
  induction bs with
  | nil => intro m k h; exact h
  | cons b bs ih =>
    intro m k h
    exact ih (setKeyed m b) k (mem_keys_setKeyed_mono m b k h)

theorem mem_keys_insertAll (bs : List Tweet) :
    ∀ (m : List Tweet), ∀ b ∈ bs, b.id ∈ keys (insertAllKeyed m bs) := by
  induction bs with
  | nil => intro m b h; exact absurd h (by simp)
  | cons b0 bs ih =>
    intro m b hb
    rcases List.mem_cons.mp hb with hb | hb
    · subst hb
      exact mem_keys_insertAll_mono bs (setKeyed m b) b.id
        (mem_keys_setKeyed_self m b)
    · exact ih (setKeyed m b0) b hb

/-- Every entry of the merged map is either the last batch element with its
id, or carried over untouched (no batch element matches its id). -/
theorem insertAll_last_or_skip (bs : List Tweet) :
    ∀ (m : List Tweet), ∀ t ∈ insertAllKeyed m bs,
      lastWith bs t.id = some t ∨ (t ∈ m ∧ lastWith bs t.id = none) := by
  induction bs with
  | nil => intro m t ht; exact Or.inr ⟨ht, rfl⟩
  | cons b bs ih =>
    intro m t ht
    rcases ih (setKeyed m b) t ht with hlast | ⟨hmem, hnone⟩
    · left
      show (match lastWith bs t.id with
        | some u => some u
        | none => if b.id == t.id then some b else none) = some t
      rw [hlast]
    · have hstep : lastWith (b :: bs) t.id
          = if b.id == t.id then some b else none := by
        show (match lastWith bs t.id with
          | some u => some u
          | none => if b.id == t.id then some b else none) = _
        rw [hnone]
      unfold setKeyed at hmem
      by_cases hany : m.any (fun u => u.id == b.id) = true
      · rw [if_pos hany] at hmem
        obtain ⟨t0, ht0, hrepl⟩ := List.mem_map.mp hmem
        by_cases hid : (t0.id == b.id) = true
        · rw [if_pos hid] at hrepl
          left
          rw [hstep, ← hrepl]
          rw [if_pos (beq_self_eq_true b.id)]
        · rw [if_neg (by simp [hid])] at hrepl
          right
          refine ⟨hrepl ▸ ht0, ?_⟩
          rw [hstep, if_neg]
          intro hc
          rw [← hrepl] at hc
          exact hid (by rw [(eq_of_beq hc).symm]; exact beq_self_eq_true b.id)
      · rw [if_neg hany] at hmem
        rcases List.mem_append.mp hmem with hmem | hmem
        · right
          refine ⟨hmem, ?_⟩
          rw [hstep, if_neg]
          intro hc
          exact hany (List.any_eq_true.mpr
            ⟨t, hmem, by rw [eq_of_beq hc]; exact beq_self_eq_true t.id⟩)
        · left
          have ht : t = b := by simpa using hmem
          rw [hstep, ht, if_pos (beq_self_eq_true b.id)]

/-- When every batch id is already present and keys are distinct, the batch
insertion is a pointwise overwrite by the last matching batch element. -/
theorem insertAll_eq_map (bs : List Tweet) :
    ∀ (m : List Tweet), (keys m).Nodup → (∀ b ∈ bs, b.id ∈ keys m) →
      insertAllKeyed m bs = m.map (updLast bs) := by
  induction bs with
  | nil =>
    intro m _ _
    show m = m.map (updLast [])
    exact ((List.map_congr_left
      (fun t _ => (rfl : updLast [] t = id t))).trans (List.map_id m)).symm
  | cons b bs ih =>
    intro m hn hk
    have hbin : b.id ∈ keys m := hk b (List.mem_cons_self b bs)
    have hany : m.any (fun t => t.id == b.id) = true := by
      rw [List.any_eq_true]
      obtain ⟨t, htm, hid⟩ := List.mem_map.mp hbin
      exact ⟨t, htm, by rw [hid]; exact beq_self_eq_true b.id⟩
    have hset : setKeyed m b = m.map (fun t => if t.id == b.id then b else t) := by
      unfold setKeyed
      rw [if_pos hany]
    show insertAllKeyed (setKeyed m b) bs = m.map (updLast (b :: bs))
    rw [hset]
    have hn2 : (keys (m.map (fun t => if t.id == b.id then b else t))).Nodup := by
      rw [keys_setKeyed_replace]; exact hn
    have hk2 : ∀ b2 ∈ bs, b2.id ∈ keys (m.map (fun t => if t.id == b.id then b else t)) := by
      intro b2 hb2
      rw [keys_setKeyed_replace]
      exact hk b2 (List.mem_cons_of_mem b hb2)
    rw [ih _ hn2 hk2, List.map_map]
    apply List.map_congr_left
    intro t _
    show updLast bs (if t.id == b.id then b else t) = updLast (b :: bs) t
    by_cases hid : (t.id == b.id) = true
    · rw [if_pos hid]
      unfold updLast
      have hstep : lastWith (b :: bs) t.id
          = match lastWith bs t.id with
            | some u => some u
            | none => if b.id == t.id then some b else none := rfl
      rw [hstep]
      rw [eq_of_beq hid]
      cases lastWith bs b.id with
      | none => simp [beq_self_eq_true]
      | some u => simp
    · rw [if_neg (by simp [hid])]
      unfold updLast
      have hstep : lastWith (b :: bs) t.id
          = match lastWith bs t.id with
            | some u => some u
            | none => if b.id == t.id then some b else none := rfl
      rw [hstep]
      cases lastWith bs t.id with
      | none =>
        have hbf : (b.id == t.id) = false := by
          rw [beq_eq_false_iff_ne]
          intro he
          exact hid (by rw [← he]; exact beq_self_eq_true b.id)
        simp [hbf]
      | some u => simp

theorem getElem_assign (l : List Tweet) (i : Nat)
    (h1 : i < (assignThreadPositions l).length) (h2 : i < l.length) :
    (assignThreadPositions l)[i] = applyAt l i l[i] := by
  simp [assignThreadPositions]

theorem keys_assign (l : List Tweet) :
    keys (assignThreadPositions l) = keys l := by
  apply List.ext_getElem
  · simp [keys, length_assign]
  · intro i h1 h2
    have hi : i < l.length := by simpa [keys] using h2
    have hia : i < (assignThreadPositions l).length := by
      rw [length_assign]; exact hi
    show (keys (assignThreadPositions l))[i] = (keys l)[i]
    unfold keys
    rw [List.getElem_map, List.getElem_map, getElem_assign l i hia hi]
    exact id_applyAt l i _

theorem pairwise_descLe_of_pointwise {l l₂ : List Tweet}
    (hlen : l₂.length = l.length)
    (hpt : ∀ (i : Nat) (h : i < l.length) (h₂ : i < l₂.length),
      createdKey (l₂.get ⟨i, h₂⟩) = createdKey (l.get ⟨i, h⟩))
    (hp : List.Pairwise (fun a b => descLe a b = true) l) :
    List.Pairwise (fun a b => descLe a b = true) l₂ := by
  rw [List.pairwise_iff_get] at hp ⊢
  intro i j hij
  have hi : (i : Nat) < l.length := by rw [← hlen]; exact i.isLt
  have hj : (j : Nat) < l.length := by rw [← hlen]; exact j.isLt
  have := hp ⟨i, hi⟩ ⟨j, hj⟩ hij
  show decide (createdKey (l₂.get j) ≤ createdKey (l₂.get i)) = true
  rw [hpt i hi i.isLt, hpt j hj j.isLt]
  exact this

/-- Overwriting a positioned element with the last batch element of its id
gives back either the unpositioned element or the positioned one; in both
cases conversation key and sort key are unchanged. -/
theorem updLast_applyAt_cases (L cl : List Tweet)
    (hfix : ∀ t ∈ L, updLast cl t = t) (i : Nat) (hi : i < L.length) :
    updLast cl (applyAt L i (L.get ⟨i, hi⟩)) = L.get ⟨i, hi⟩ ∨
    updLast cl (applyAt L i (L.get ⟨i, hi⟩)) = applyAt L i (L.get ⟨i, hi⟩) := by
  have hid : (applyAt L i (L.get ⟨i, hi⟩)).id = (L.get ⟨i, hi⟩).id :=
    id_applyAt L i _
  unfold updLast
  rw [hid]
  cases hlw : lastWith cl (L.get ⟨i, hi⟩).id with
  | none => right; rfl
  | some s =>
    left
    have hfx := hfix (L.get ⟨i, hi⟩) (L.get_mem i hi)
    unfold updLast at hfx
    rw [hlw] at hfx
    simpa using hfx

theorem tweetCong_updLast_applyAt (L cl : List Tweet)
    (hfix : ∀ t ∈ L, updLast cl t = t) (i : Nat) (hi : i < L.length) :
    TweetCong (updLast cl (applyAt L i (L.get ⟨i, hi⟩))) (L.get ⟨i, hi⟩) := by
  rcases updLast_applyAt_cases L cl hfix i hi with hcase | hcase
  · rw [hcase]
    exact ⟨rfl, rfl⟩
  · rw [hcase]
    exact ⟨convKey_applyAt L i _, createdKey_applyAt L i _⟩

/-- Re-running the assignment pass after overwriting each element with the
last batch element of its id (a change of `thread_position` only, by
`hfix`) reproduces the assigned list. -/
theorem assign_map_updLast (L cl : List Tweet)
    (hfix : ∀ t ∈ L, updLast cl t = t) :
    assignThreadPositions ((assignThreadPositions L).map (updLast cl))
      = assignThreadPositions L := by
  have hlenM : (assignThreadPositions L).length = L.length := length_assign L
  have hlen2 : ((assignThreadPositions L).map (updLast cl)).length = L.length := by
    rw [List.length_map, hlenM]
  have hgetm : ∀ (i : Nat) (h : i < L.length)
      (h₂ : i < ((assignThreadPositions L).map (updLast cl)).length),
      ((assignThreadPositions L).map (updLast cl)).get ⟨i, h₂⟩
        = updLast cl (applyAt L i (L.get ⟨i, h⟩)) := by
    intro i h h₂
    have hia : i < (assignThreadPositions L).length := by rw [hlenM]; exact h
    show ((assignThreadPositions L).map (updLast cl))[i]
      = updLast cl (applyAt L i (L.get ⟨i, h⟩))
    rw [List.getElem_map, getElem_assign L i hia h]
    rfl
  have hpt : ∀ (i : Nat) (h : i < L.length)
      (h₂ : i < ((assignThreadPositions L).map (updLast cl)).length),
      TweetCong (((assignThreadPositions L).map (updLast cl)).get ⟨i, h₂⟩)
        (L.get ⟨i, h⟩) := by
    intro i h h₂
    rw [hgetm i h h₂]
    exact tweetCong_updLast_applyAt L cl hfix i h
  apply List.ext_getElem
  · rw [length_assign, hlen2, length_assign]
  · intro i h1 h2
    have hi : i < L.length := by rw [← hlenM]; exact h2
    have hmap : i < ((assignThreadPositions L).map (updLast cl)).length := by
      rw [hlen2]; exact hi
    rw [getElem_assign _ i h1 hmap, getElem_assign L i h2 hi]
    have hx : ((assignThreadPositions L).map (updLast cl))[i]
        = updLast cl (applyAt L i (L.get ⟨i, hi⟩)) := hgetm i hi hmap
    rw [hx]
    have hLi : L[i] = L.get ⟨i, hi⟩ := rfl
    rw [hLi]
    cases hck : convKey (L.get ⟨i, hi⟩) with
    | none =>
      have happ : applyAt L i (L.get ⟨i, hi⟩) = L.get ⟨i, hi⟩ := by
        simp only [applyAt, hck]
      rw [happ, hfix (L.get ⟨i, hi⟩) (L.get_mem i hi)]
      simp only [applyAt, hck]
    | some c =>
      have hπ : posIn ((assignThreadPositions L).map (updLast cl)) c i
          = posIn L c i :=
        posIn_congr hlen2 hpt c i
      have hcku : convKey (updLast cl (applyAt L i (L.get ⟨i, hi⟩))) = some c := by
        rcases updLast_applyAt_cases L cl hfix i hi with hcase | hcase
        · rw [hcase, hck]
        · rw [hcase, convKey_applyAt, hck]
      cases hπv : posIn L c i with
      | none =>
        have happ : applyAt L i (L.get ⟨i, hi⟩) = L.get ⟨i, hi⟩ := by
          simp only [applyAt, hck, hπv]
        rw [happ, hfix (L.get ⟨i, hi⟩) (L.get_mem i hi)]
        simp only [applyAt, hck, hπ, hπv]
      | some p =>
        have hrhs : applyAt L i (L.get ⟨i, hi⟩)
            = { L.get ⟨i, hi⟩ with thread_position := some p } := by
          simp only [applyAt, hck, hπv]
        have hlhs : ∀ x : Tweet, convKey x = some c →
            applyAt ((assignThreadPositions L).map (updLast cl)) i x
              = { x with thread_position := some p } := by
          intro x hcx
          simp only [applyAt, hcx, hπ, hπv]
        rcases updLast_applyAt_cases L cl hfix i hi with hcase | hcase
        · rw [hlhs _ hcku, hcase, hrhs]
        · rw [hlhs _ hcku, hcase, hrhs]

/-- C2: merging the same fetched batch twice produces an archive identical
to merging it once — same item set, same order, same thread positions. -/
theorem mergeTweets_idempotent (ex cl : List Tweet) :
    mergeTweets (mergeTweets ex cl) cl = mergeTweets ex cl := by
  show assignThreadPositions (sortStable descLe
      (insertAllKeyed (insertAllKeyed [] (mergeTweets ex cl)) cl))
    = mergeTweets ex cl
  have hnE : (keys (insertAllKeyed [] ex)).Nodup :=
    nodup_keys_insertAll ex [] (by simp [keys])
  have hnK : (keys (insertAllKeyed (insertAllKeyed [] ex) cl)).Nodup :=
    nodup_keys_insertAll cl _ hnE
  have hpermL : List.Perm
      (sortStable descLe (insertAllKeyed (insertAllKeyed [] ex) cl))
      (insertAllKeyed (insertAllKeyed [] ex) cl) :=
    sortStable_perm descLe _
  have hkeysL : List.Perm
      (keys (sortStable descLe (insertAllKeyed (insertAllKeyed [] ex) cl)))
      (keys (insertAllKeyed (insertAllKeyed [] ex) cl)) :=
    hpermL.map Tweet.id
  have hnL : (keys (sortStable descLe
      (insertAllKeyed (insertAllKeyed [] ex) cl))).Nodup :=
    hkeysL.nodup_iff.mpr hnK
  have hfixK : ∀ t ∈ insertAllKeyed (insertAllKeyed [] ex) cl,
      updLast cl t = t := by
    intro t ht
    rcases insertAll_last_or_skip cl _ t ht with h | ⟨_, h⟩
    · unfold updLast; rw [h]; rfl
    · unfold updLast; rw [h]; rfl
  have hfixL : ∀ t ∈ sortStable descLe (insertAllKeyed (insertAllKeyed [] ex) cl),
      updLast cl t = t := fun t ht => hfixK t (hpermL.mem_iff.mp ht)
  have hkeysM : keys (mergeTweets ex cl)
      = keys (sortStable descLe (insertAllKeyed (insertAllKeyed [] ex) cl)) :=
    keys_assign _
  have hnM : (keys (mergeTweets ex cl)).Nodup := by rw [hkeysM]; exact hnL
  have hclM : ∀ b ∈ cl, b.id ∈ keys (mergeTweets ex cl) := by
    intro b hb
    rw [hkeysM]
    exact hkeysL.mem_iff.mpr (mem_keys_insertAll cl _ b hb)
  rw [insertAll_nil_of_nodup (mergeTweets ex cl) hnM]
  rw [insertAll_eq_map cl (mergeTweets ex cl) hnM hclM]
  have hsortedL : List.Pairwise (fun a b => descLe a b = true)
      (sortStable descLe (insertAllKeyed (insertAllKeyed [] ex) cl)) :=
    sortStable_pairwise descLe descLe_total descLe_trans _
  have hlen2 : ((mergeTweets ex cl).map (updLast cl)).length
      = (sortStable descLe (insertAllKeyed (insertAllKeyed [] ex) cl)).length := by
    show ((assignThreadPositions _).map (updLast cl)).length = _
    rw [List.length_map, length_assign]
  have hptc : ∀ (i : Nat)
      (h : i < (sortStable descLe (insertAllKeyed (insertAllKeyed [] ex) cl)).length)
      (h₂ : i < ((mergeTweets ex cl).map (updLast cl)).length),
      createdKey (((mergeTweets ex cl).map (updLast cl)).get ⟨i, h₂⟩)
        = createdKey ((sortStable descLe
            (insertAllKeyed (insertAllKeyed [] ex) cl)).get ⟨i, h⟩) := by
    intro i h h₂
    have hia : i < (mergeTweets ex cl).length := by
      show i < (assignThreadPositions _).length
      rw [length_assign]; exact h
    have hget : ((mergeTweets ex cl).map (updLast cl)).get ⟨i, h₂⟩
        = updLast cl (applyAt
            (sortStable descLe (insertAllKeyed (insertAllKeyed [] ex) cl)) i
            ((sortStable descLe (insertAllKeyed (insertAllKeyed [] ex) cl)).get
              ⟨i, h⟩)) := by
      show ((mergeTweets ex cl).map (updLast cl))[i] = _
      rw [List.getElem_map]
      show updLast cl ((assignThreadPositions _)[i]) = _
      rw [getElem_assign _ i hia h]
      rfl
    rw [hget]
    exact (tweetCong_updLast_applyAt _ cl hfixL i h).2
  have hsorted2 : List.Pairwise (fun a b => descLe a b = true)
      ((mergeTweets ex cl).map (updLast cl)) :=
    pairwise_descLe_of_pointwise hlen2 hptc hsortedL
  rw [sortStable_eq_of_pairwise descLe _ hsorted2]
  exact assign_map_updLast _ cl hfixL

theorem jsOrNull_ne_empty {o : Option String} {s : String}
    (h : jsOrNull o = some s) : s ≠ "" := by
  cases o with
  | none => simp [jsOrNull] at h
  | some v =>
    by_cases hv : v = ""
    · simp [jsOrNull, hv] at h
    · simp [jsOrNull, hv] at h
      rw [← h]
      exact hv

/-- An iteration only writes the cursor and data entry of its own user. -/
theorem processUser_preserve (fetch : String → Except String FPage)
    (st : SyncState) (u : FUser) (k : String) (hk : k ≠ u.id) :
    (processUser fetch st u).sinceIds k = st.sinceIds k
    ∧ (processUser fetch st u).existingData k = st.existingData k := by
  have hbeq : (k == u.id) = false := by
    rw [beq_eq_false_iff_ne]; exact hk
  unfold processUser
  cases hf : fetch u.id with
  | error e => exact ⟨rfl, rfl⟩
  | ok page =>
    constructor
    · show (match
          (match accountMerged (st.existingData u.id) u.id page with
            | t :: _ => some t.id
            | [] => jsOrNull (st.sinceIds u.id)) with
          | some lid =>
            if lid = "" then st.sinceIds
            else fun k => if k == u.id then some lid else st.sinceIds k
          | none => st.sinceIds) k = st.sinceIds k
      cases accountMerged (st.existingData u.id) u.id page with
      | nil =>
        cases jsOrNull (st.sinceIds u.id) with
        | none => rfl
        | some s =>
          show (if s = "" then st.sinceIds
            else fun k => if k == u.id then some s else st.sinceIds k) k
            = st.sinceIds k
          split
          · rfl
          · simp [hbeq]
      | cons t ts =>
        show (if t.id = "" then st.sinceIds
          else fun k => if k == u.id then some t.id else st.sinceIds k) k
          = st.sinceIds k
        split
        · rfl
        · simp [hbeq]
    · show (if k == u.id then _ else st.existingData k) = st.existingData k
      simp [hbeq]

/-- An iteration leaves, for its own user, exactly the per-account cursor
and data entry. -/
theorem processUser_self (fetch : String → Except String FPage)
    (st : SyncState) (u : FUser) :
    (processUser fetch st u).sinceIds u.id
      = (perAccount fetch (st.sinceIds u.id) (st.existingData u.id) u).1
    ∧ (processUser fetch st u).existingData u.id
      = (perAccount fetch (st.sinceIds u.id) (st.existingData u.id) u).2 := by
  unfold processUser perAccount
  cases hf : fetch u.id with
  | error e => exact ⟨rfl, rfl⟩
  | ok page =>
    constructor
    · show (match
          (match accountMerged (st.existingData u.id) u.id page with
            | t :: _ => some t.id
            | [] => jsOrNull (st.sinceIds u.id)) with
          | some lid =>
            if lid = "" then st.sinceIds
            else fun k => if k == u.id then some lid else st.sinceIds k
          | none => st.sinceIds) u.id
        = (match
          (match accountMerged (st.existingData u.id) u.id page with
            | t :: _ => some t.id
            | [] => jsOrNull (st.sinceIds u.id)) with
          | some lid => if lid = "" then st.sinceIds u.id else some lid
          | none => st.sinceIds u.id)
      cases accountMerged (st.existingData u.id) u.id page with
      | nil =>
        cases hs : jsOrNull (st.sinceIds u.id) with
        | none => rfl
        | some s =>
          have hse : ¬ s = "" := jsOrNull_ne_empty hs
          show (if s = "" then st.sinceIds
            else fun k => if k == u.id then some s else st.sinceIds k) u.id
            = if s = "" then st.sinceIds u.id else some s
          rw [if_neg hse, if_neg hse]
          simp [beq_self_eq_true]
      | cons t ts =>
        show (if t.id = "" then st.sinceIds
          else fun k => if k == u.id then some t.id else st.sinceIds k) u.id
          = if t.id = "" then st.sinceIds u.id else some t.id
        split
        · rfl
        · simp [beq_self_eq_true]
    · show (if u.id == u.id then _ else st.existingData u.id) = _
      simp [beq_self_eq_true]

theorem processUser_errors (fetch : String → Except String FPage)
    (st : SyncState) (u : FUser) :
    (processUser fetch st u).errors
      = st.errors + (if isErr (fetch u.id) then 1 else 0) := by
  unfold processUser
  cases hf : fetch u.id with
  | error e => simp [isErr, hf]
  | ok page => simp [isErr, hf]

theorem runSync_preserve (fetch : String → Except String FPage)
    (users : List FUser) :
    ∀ (st : SyncState) (k : String), (∀ u ∈ users, u.id ≠ k) →
      (runSync fetch st users).sinceIds k = st.sinceIds k
      ∧ (runSync fetch st users).existingData k = st.existingData k := by
  induction users with
  | nil => intro st k _; exact ⟨rfl, rfl⟩
  | cons u us ih =>
    intro st k hk
    have h1 := processUser_preserve fetch st u k
      (fun he => hk u (List.mem_cons_self u us) he.symm)
    have h2 := ih (processUser fetch st u) k
      (fun v hv => hk v (List.mem_cons_of_mem u hv))
    exact ⟨h2.1.trans h1.1, h2.2.trans h1.2⟩

theorem runSync_errors (fetch : String → Except String FPage)
    (users : List FUser) :
    ∀ st : SyncState, (runSync fetch st users).errors
      = st.errors + users.countP (fun u => isErr (fetch u.id)) := by
  induction users with
  | nil => intro st; rfl
  | cons u us ih =>
    intro st
    show (runSync fetch (processUser fetch st u) us).errors = _
    rw [ih, processUser_errors]
    rw [List.countP_cons]
    cases hf : isErr (fetch u.id) with
    | false => simp
    | true => simp [Nat.add_comm, Nat.add_assoc, Nat.add_left_comm]

/-- With distinct user ids, the final cursor and data entry of a user are
the per-account outcome computed from the initial cursor/entry of that user. -/
theorem runSync_key (fetch : String → Except String FPage)
    (users : List FUser) :
    ∀ (st : SyncState) (a : FUser), a ∈ users →
      (users.map FUser.id).Nodup →
      (runSync fetch st users).sinceIds a.id
        = (perAccount fetch (st.sinceIds a.id) (st.existingData a.id) a).1
      ∧ (runSync fetch st users).existingData a.id
        = (perAccount fetch (st.sinceIds a.id) (st.existingData a.id) a).2 := by
  induction users with
  | nil => intro st a ha _; exact absurd ha (by simp)
  | cons u us ih =>
    intro st a ha hnod
    rw [List.map_cons, List.nodup_cons] at hnod
    rcases List.mem_cons.mp ha with rfl | ha
    · have hrest : ∀ v ∈ us, v.id ≠ a.id := by
        intro v hv he
        exact hnod.1 (he ▸ List.mem_map_of_mem FUser.id hv)
      have hp := runSync_preserve fetch us (processUser fetch st a) a.id hrest
      have hs := processUser_self fetch st a
      exact ⟨hp.1.trans hs.1, hp.2.trans hs.2⟩
    · have hne : a.id ≠ u.id := by
        intro he
        exact hnod.1 (he ▸ List.mem_map_of_mem FUser.id ha)
      have hpres := processUser_preserve fetch st u a.id hne
      have := ih (processUser fetch st u) a ha hnod.2
      rw [hpres.1, hpres.2] at this
      exact this

theorem jsOrNull_eq_some {o : Option String} {s : String}
    (h : jsOrNull o = some s) : o = some s := by
  cases o with
  | none => simp [jsOrNull] at h
  | some v =>
    by_cases hv : v = ""
    · simp [jsOrNull, hv] at h
    · simp [jsOrNull, hv] at h
      rw [h]

theorem perAccount_error (fetch : String → Except String FPage)
    (since0 : Option String) (entry0 : Option UserEntry) (u : FUser)
    (e : String) (hf : fetch u.id = Except.error e) :
    perAccount fetch since0 entry0 u = (since0, entry0) := by
  unfold perAccount
  rw [hf]

theorem perAccount_ok_fst (fetch : String → Except String FPage)
    (since0 : Option String) (entry0 : Option UserEntry) (u : FUser)
    (page : FPage) (hok : fetch u.id = Except.ok page) :
    (perAccount fetch since0 entry0 u).1
      = (match (match accountMerged entry0 u.id page with
          | t :: _ => some t.id
          | [] => jsOrNull since0) with
        | some lid => if lid = "" then since0 else some lid
        | none => since0) := by
  unfold perAccount
  rw [hok]

theorem perAccount_ok_snd (fetch : String → Except String FPage)
    (since0 : Option String) (entry0 : Option UserEntry) (u : FUser)
    (page : FPage) (hok : fetch u.id = Except.ok page) :
    ((perAccount fetch since0 entry0 u).2).map UserEntry.tweets
      = some (accountMerged entry0 u.id page) := by
  unfold perAccount
  rw [hok]
  rfl

/-- C1 (amended): after a successful per-account step, the stored cursor
equals the id of the first (newest-by-`created_at`) item of the merged
list when items were merged (and that id is nonempty); it keeps its prior
value when nothing was merged; and it does not decrease whenever every
merged item id is numerically ≥ the prior cursor. -/
theorem perAccount_cursor (fetch : String → Except String FPage)
    (since0 : Option String) (entry0 : Option UserEntry) (u : FUser)
    (page : FPage) (hok : fetch u.id = Except.ok page) :
    (accountMerged entry0 u.id page = [] →
      (perAccount fetch since0 entry0 u).1 = since0)
    ∧ (∀ t ts, accountMerged entry0 u.id page = t :: ts → t.id ≠ "" →
      (perAccount fetch since0 entry0 u).1 = some t.id)
    ∧ (∀ s, since0 = some s → accountMerged entry0 u.id page ≠ [] →
      (∀ t ∈ accountMerged entry0 u.id page, idNum s ≤ idNum t.id) →
      ∃ lid, (perAccount fetch since0 entry0 u).1 = some lid
        ∧ idNum s ≤ idNum lid) := by
  refine ⟨?_, ?_, ?_⟩
  · intro hm
    rw [perAccount_ok_fst fetch since0 entry0 u page hok, hm]
    cases hj : jsOrNull since0 with
    | none => rfl
    | some s =>
      show (if s = "" then since0 else some s) = since0
      rw [if_neg (jsOrNull_ne_empty hj)]
      exact (jsOrNull_eq_some hj).symm
  · intro t ts hm ht
    rw [perAccount_ok_fst fetch since0 entry0 u page hok, hm]
    show (if t.id = "" then since0 else some t.id) = some t.id
    rw [if_neg ht]
  · intro s hs hne hall
    rw [perAccount_ok_fst fetch since0 entry0 u page hok]
    cases hm : accountMerged entry0 u.id page with
    | nil => exact absurd hm hne
    | cons t ts =>
      by_cases ht : t.id = ""
      · refine ⟨s, ?_, Nat.le_refl _⟩
        show (if t.id = "" then since0 else some t.id) = some s
        rw [if_pos ht]
        exact hs
      · refine ⟨t.id, ?_, hall t (hm ▸ List.mem_cons_self t ts)⟩
        show (if t.id = "" then since0 else some t.id) = some t.id
        rw [if_neg ht]

/-- Witness for `perAccount_cursor`: one fetched tweet with id `"7"`
advances the cursor from `"5"` to `"7"`. -/
theorem perAccount_cursor_witness :
    (perAccount (fun _ => Except.ok { data := [{ id := "7", created_at := some "2026-01-01" }] })
      (some "5") none { id := "42" }).1 = some "7" :=
  (perAccount_cursor (fun _ => Except.ok { data := [{ id := "7", created_at := some "2026-01-01" }] })
      (some "5") none { id := "42" }
      { data := [{ id := "7", created_at := some "2026-01-01" }] } rfl).2.1
    { id := "7", created_at := some "2026-01-01", full_text := "",
      tweet_type := some TweetType.original }
    [] (by decide) (by decide)

/-- C1 counterexample: with prior cursor `"20"` and a fetched batch
`[id "13" (newer created_at), id "14" (older)]`, the per-account step
stores cursor `"13"` — numerically and lexicographically below the prior
cursor `"20"`, and different from the maximum merged id `"14"`. -/
theorem perAccount_cursor_counterexample :
    (perAccount
        (fun _ => Except.ok { data :=
          [{ id := "13", created_at := some "2026-01-02" },
           { id := "14", created_at := some "2026-01-01" }] })
        (some "20") none { id := "42" }).1 = some "13"
    ∧ keys (((perAccount
        (fun _ => Except.ok { data :=
          [{ id := "13", created_at := some "2026-01-02" },
           { id := "14", created_at := some "2026-01-01" }] })
        (some "20") none { id := "42" }).2.map UserEntry.tweets).getD [])
      = ["13", "14"]
    ∧ idNum "13" < idNum "20"
    ∧ "13".data < "20".data
    ∧ idNum "13" < idNum "14" := by
  decide

/-- C5 (amended): when the fetch of exactly one tracked account raises a
transport error, the loop completes rather than aborting: the error count
rises by exactly one, the failing account keeps its cursor and stored data
untouched, and every other account has its page classified and merged into
its archive, with its cursor set per the per-account rule (the
newest-by-`created_at` merged id) — which is ≥ the prior cursor whenever
every merged item id is numerically ≥ it, though in general the cursor
need not advance (see the counterexample). -/
theorem sync_partial_failure_isolation
    (users : List FUser) (fetch : String → Except String FPage)
    (pg : String → FPage) (st0 : SyncState) (b : FUser) (e : String)
    (hnodup : (users.map FUser.id).Nodup) (hb : b ∈ users)
    (hfail : fetch b.id = Except.error e)
    (hok : ∀ a ∈ users, a.id ≠ b.id → fetch a.id = Except.ok (pg a.id)) :
    ((runSync fetch st0 users).errors = st0.errors + 1)
    ∧ (∀ a ∈ users, a.id ≠ b.id →
        (runSync fetch st0 users).sinceIds a.id
          = (perAccount fetch (st0.sinceIds a.id) (st0.existingData a.id) a).1
        ∧ ((runSync fetch st0 users).existingData a.id).map UserEntry.tweets
          = some (accountMerged (st0.existingData a.id) a.id (pg a.id)))
    ∧ ((runSync fetch st0 users).sinceIds b.id = st0.sinceIds b.id
        ∧ (runSync fetch st0 users).existingData b.id = st0.existingData b.id)
    ∧ (∀ a ∈ users, a.id ≠ b.id → ∀ s, st0.sinceIds a.id = some s →
        accountMerged (st0.existingData a.id) a.id (pg a.id) ≠ [] →
        (∀ t ∈ accountMerged (st0.existingData a.id) a.id (pg a.id),
          idNum s ≤ idNum t.id) →
        ∃ lid, (runSync fetch st0 users).sinceIds a.id = some lid
          ∧ idNum s ≤ idNum lid) := by
  refine ⟨?_, ?_, ?_, ?_⟩
  · rw [runSync_errors fetch users st0]
    have h1 : List.countP (fun u => isErr (fetch u.id)) users
        = List.countP (fun u => u.id == b.id) users := by
      apply List.countP_congr
      intro u hu
      by_cases hid : u.id = b.id
      · constructor
        · intro _; simp [hid]
        · intro _; rw [hid, hfail]; rfl
      · constructor
        · intro hisErr
          exfalso
          rw [hok u hu hid] at hisErr
          simp [isErr] at hisErr
        · intro hbeq
          exact absurd (eq_of_beq hbeq) hid
    have h2 : List.count b.id (users.map FUser.id)
        = List.countP (fun u => u.id == b.id) users := by
      rw [show List.count b.id (users.map FUser.id)
          = List.countP (fun x => x == b.id) (users.map FUser.id) from rfl]
      rw [List.countP_map]
      rfl
    rw [h1, ← h2,
      List.count_eq_one_of_mem hnodup (List.mem_map_of_mem FUser.id hb)]
  · intro a ha hne
    have hkey := runSync_key fetch users st0 a ha hnodup
    refine ⟨hkey.1, ?_⟩
    rw [hkey.2]
    exact perAccount_ok_snd fetch (st0.sinceIds a.id) (st0.existingData a.id)
      a (pg a.id) (hok a ha hne)
  · have hkey := runSync_key fetch users st0 b hb hnodup
    rw [hkey.1, hkey.2,
      perAccount_error fetch (st0.sinceIds b.id) (st0.existingData b.id) b e hfail]
    exact ⟨rfl, rfl⟩
  · intro a ha hne s hs hmne hall
    have hkey := runSync_key fetch users st0 a ha hnodup
    rw [hkey.1]
    exact (perAccount_cursor fetch (st0.sinceIds a.id) (st0.existingData a.id)
      a (pg a.id) (hok a ha hne)).2.2 s hs hmne hall

/-- Witness for `sync_partial_failure_isolation`: three tracked accounts
`A`, `B`, `C` where the fetch of `B` fails — the run completes with one error. -/
theorem sync_partial_failure_isolation_witness :
    (runSync demoFetch demoState demoUsers).errors = demoState.errors + 1 :=
  (sync_partial_failure_isolation demoUsers demoFetch (fun _ => demoPage)
      demoState { id := "B" } "boom"
      (by decide) (by decide) rfl
      (by
        intro a ha hne
        fin_cases ha
        · rfl
        · exact absurd rfl hne
        · rfl)).1

/-- C5 counterexample: accounts `A`, `B`, `C` each with prior cursor
`"20"`; only the fetch of `B` fails, and the surviving accounts fetch ids
`"13"` (newer `created_at`) and `"14"`.  The run does complete with
exactly one error and the surviving accounts do get their items merged —
but account `C` ends with cursor `"13"`, numerically and lexicographically
below its prior value `"20"`: the claim that the remaining accounts have
their cursors advanced is false at this input. -/
theorem sync_partial_failure_cursor_counterexample :
    (runSync cexFetch cexState [{ id := "A" }, { id := "B" }, { id := "C" }]).errors = 1
    ∧ (runSync cexFetch cexState
        [{ id := "A" }, { id := "B" }, { id := "C" }]).sinceIds "B" = some "20"
    ∧ keys ((((runSync cexFetch cexState
        [{ id := "A" }, { id := "B" }, { id := "C" }]).existingData "C").map
          UserEntry.tweets).getD []) = ["13", "14"]
    ∧ (runSync cexFetch cexState
        [{ id := "A" }, { id := "B" }, { id := "C" }]).sinceIds "C" = some "13"
    ∧ idNum "13" < idNum "20"
    ∧ "13".data < "20".data := by
  decide

theorem knownHit_some (kid : String) (t : Tweet) :
    knownHit (some kid) t = if kid = "" then false else t.id == kid := rfl

theorem knownHit_of_ne (kid : String) (t : Tweet) (h : t.id ≠ kid) :
    knownHit (some kid) t = false := by
  rw [knownHit_some]
  split
  · rfl
  · rw [beq_eq_false_iff_ne]
    exact h

theorem takeNew_no_hit (kid : String) (q : List Tweet)
    (hq : ∀ x ∈ q, x.id ≠ kid) :
    takeNew (some kid) q = (q, false) := by
  induction q with
  | nil => rfl
  | cons t ts ih =>
    unfold takeNew
    rw [knownHit_of_ne kid t (hq t (List.mem_cons_self t ts))]
    simp only [Bool.false_eq_true, if_false]
    rw [ih (fun x hx => hq x (List.mem_cons_of_mem t hx))]

theorem takeNew_hit (kid : String) (hk : kid ≠ "") (pre post : List Tweet)
    (t : Tweet) (ht : t.id = kid) (hpre : ∀ x ∈ pre, x.id ≠ kid) :
    takeNew (some kid) (pre ++ t :: post) = (pre, true) := by
  induction pre with
  | nil =>
    rw [List.nil_append]
    unfold takeNew
    have hhit : knownHit (some kid) t = true := by
      rw [knownHit_some, if_neg hk, ht]
      exact beq_self_eq_true kid
    rw [hhit]
    simp
  | cons x xs ih =>
    show takeNew (some kid) (x :: (xs ++ t :: post)) = (x :: xs, true)
    unfold takeNew
    rw [knownHit_of_ne kid x (hpre x (List.mem_cons_self x xs))]
    simp only [Bool.false_eq_true, if_false]
    rw [ih (fun y hy => hpre y (List.mem_cons_of_mem x hy))]

/-- C6: the bookmark loop stops at the stored id: everything before it
(across the earlier, known-id-free pages and the prefix of the hit page)
is collected, the known item and everything after it is not, and no page
beyond the hit page is requested. -/
theorem bookmarks_early_stop (kid : String) (hk : kid ≠ "")
    (ps : List (List Tweet)) (pre post : List Tweet) (t : Tweet)
    (ht : t.id = kid) (hpre : ∀ x ∈ pre, x.id ≠ kid)
    (hps : ∀ q ∈ ps, q ≠ [] ∧ ∀ x ∈ q, x.id ≠ kid)
    (rest : List (List Tweet)) :
    bookmarkPages (some kid) (ps ++ (pre ++ t :: post) :: rest)
      = (ps.flatten ++ pre, ps.length + 1) := by
  induction ps with
  | nil =>
    rw [List.nil_append]
    unfold bookmarkPages
    rw [if_neg (by simp)]
    rw [takeNew_hit kid hk pre post t ht hpre]
    simp
  | cons q qs ih =>
    show bookmarkPages (some kid) (q :: (qs ++ (pre ++ t :: post) :: rest)) = _
    unfold bookmarkPages
    have hq := hps q (List.mem_cons_self q qs)
    rw [if_neg hq.1]
    rw [takeNew_no_hit kid q hq.2]
    simp only [Bool.false_eq_true, if_false]
    rw [ih (fun r hr => hps r (List.mem_cons_of_mem q hr))]
    simp [List.flatten, List.append_assoc]

/-- Witness for `bookmarks_early_stop`: with known id `"5"`, one full
earlier page `[9]` and a hit page `[8, 5, 4]`, only `[9, 8]` is collected
and two pages are requested, though a third page is available. -/
theorem bookmarks_early_stop_witness :
    bookmarkPages (some "5")
        [[{ id := "9" }], [{ id := "8" }, { id := "5" }, { id := "4" }],
         [{ id := "3" }]]
      = ([{ id := "9" }, { id := "8" }], 2) :=
  (bookmarks_early_stop "5" (by decide) [[{ id := "9" }]]
      [{ id := "8" }] [{ id := "4" }] { id := "5" } rfl
      (by decide) (by decide) [[{ id := "3" }]]).trans (by decide)

/-- C9 (amended): `ensureValidToken` refreshes exactly when a nonzero
expiry is recorded and `now ≥ expires_at − 300`; a successful refresh
replaces both tokens and persists the updated config (the `saves` entry)
before returning; a failed refresh surfaces
`Token refresh failed (status): body` with no retry; outside the refresh
condition the config is returned unchanged with no effects. -/
theorem ensure_token_refresh (cfg : Cfg) (nowSec : Int) (st : Nat)
    (rb atk rtk : String) (ei : Int) (rest : List HttpEv) :
    (cfg.token_expires_at ≠ 0 → nowSec ≥ cfg.token_expires_at - 300 →
      ensureValidTokenM cfg nowSec (HttpEv.refreshResp st rb atk rtk ei :: rest)
        = (if httpOk st then
            some (Except.ok (refreshedCfg cfg atk rtk (nowSec + ei)),
              { refreshCalls := 1
                saves := [refreshedCfg cfg atk rtk (nowSec + ei)] }, rest)
          else
            some (Except.error
                ("Token refresh failed (" ++ toString st ++ "): " ++ rb),
              { refreshCalls := 1 }, rest)))
    ∧ ((cfg.token_expires_at = 0 ∨ nowSec < cfg.token_expires_at - 300) →
      ∀ evs, ensureValidTokenM cfg nowSec evs = some (Except.ok cfg, {}, evs)) := by
  constructor
  · intro h0 hge
    have hnr : needRefresh cfg nowSec = true := by
      unfold needRefresh
      rw [Bool.and_eq_true]
      exact ⟨bne_iff_ne.mpr h0, decide_eq_true hge⟩
    unfold ensureValidTokenM
    rw [hnr]
    simp only [if_true]
    simp only [refreshTokenM]
  · intro h evs
    have hnr : needRefresh cfg nowSec = false := by
      unfold needRefresh
      rcases h with h0 | hlt
      · rw [h0]
        rfl
      · rw [Bool.and_eq_false_iff]
        right
        rw [decide_eq_false_iff_not]
        exact not_le.mpr hlt
    unfold ensureValidTokenM
    rw [hnr]
    rfl

/-- Witness for `ensure_token_refresh`: a token 100 s from expiry is
inside the 300 s skew window, so a call refreshes, swaps both tokens and
persists the new config before returning. -/
theorem ensure_token_refresh_witness :
    ensureValidTokenM { access_token := "a", refresh_token := "r", token_expires_at := 500 }
        400 [HttpEv.refreshResp 200 "" "a2" "r2" 100]
      = some (Except.ok (refreshedCfg
            { access_token := "a", refresh_token := "r", token_expires_at := 500 }
            "a2" "r2" 500),
          { refreshCalls := 1
            saves := [refreshedCfg
              { access_token := "a", refresh_token := "r", token_expires_at := 500 }
              "a2" "r2" 500] }, []) :=
  (ensure_token_refresh
      { access_token := "a", refresh_token := "r", token_expires_at := 500 }
      400 200 "" "a2" "r2" 100 []).1 (by decide) (by decide)

/-- C9 counterexample: a config whose recorded expiry is `0` (as
`auth.ts init` writes before any login) satisfies the claimed condition
`now ≥ expires_at − 300`, yet the validity check performs no refresh:
the event script is not consumed and the config is returned unchanged. -/
theorem ensure_token_zero_expiry_counterexample :
    needRefresh { token_expires_at := 0 } 1000 = false
    ∧ ((1000 : Int) ≥ ({ token_expires_at := 0 } : Cfg).token_expires_at - 300)
    ∧ ensureValidTokenM { token_expires_at := 0 } 1000
        [HttpEv.refreshResp 200 "" "a2" "r2" 7200]
      = some (Except.ok { token_expires_at := 0 }, {},
          [HttpEv.refreshResp 200 "" "a2" "r2" 7200]) :=
  ⟨rfl, by decide, rfl⟩

/-- C7: a 429 response makes `apiGet` sleep
`min(max(reset·1000 − now, 1000), 900000)` ms — at least 1 s, at most 15
minutes — and retry the same call; a single 429 followed by a 2xx yields
exactly one retried call (2 calls total) and a successful result, with no
error surfaced. -/
theorem rate_limit_recovery (cfg : Cfg) (nowMs reset : Int)
    (bd1 bd2 : String) (rest : List HttpEv)
    (hval : needRefresh cfg (nowMs / 1000) = false)
    (hval2 : needRefresh cfg
      ((nowMs + min (max (reset * 1000 - nowMs) 1000) 900000) / 1000) = false) :
    apiGet cfg nowMs
        (HttpEv.resp 429 reset bd1 :: HttpEv.resp 200 0 bd2 :: rest)
      = (ApiResult.ok bd2,
         { calls := 2
           refreshCalls := 0
           sleeps := [min (max (reset * 1000 - nowMs) 1000) 900000]
           saves := [] }, rest)
    ∧ 1000 ≤ min (max (reset * 1000 - nowMs) 1000) 900000
    ∧ min (max (reset * 1000 - nowMs) 1000) 900000 ≤ 900000 := by
  refine ⟨?_, ?_, ?_⟩
  · simp [apiGet, apiGetM, ensureValidTokenM, hval, hval2, RunTrace.app, httpOk]
  · exact le_min (le_max_right _ _) (by decide)
  · exact min_le_right _ _

/-- Witness for `rate_limit_recovery`: one 429 (reset 1 s after epoch,
now = 0) then a 200 — two calls, one 1000 ms sleep, success. -/
theorem rate_limit_recovery_witness :
    apiGet { token_expires_at := 0 } 0
        [HttpEv.resp 429 1 "limited", HttpEv.resp 200 0 "payload"]
      = (ApiResult.ok "payload",
         { calls := 2
           refreshCalls := 0
           sleeps := [min (max ((1 : Int) * 1000 - 0) 1000) 900000]
           saves := [] }, []) :=
  (rate_limit_recovery { token_expires_at := 0 } 0 1 "limited" "payload" []
      (by decide) (by decide)).1

/-- C8: on a 401, `apiGet` forces a token refresh and retries the request
exactly once; if the retried request is not 2xx (including a second 401)
the call fails with `API error status: body` and nothing further is
attempted (the remaining script is untouched); if the retry is 2xx the
body is returned.  Either way exactly two main-URL calls are made. -/
theorem auth_retry_once (cfg : Cfg) (nowMs reset r2 ei : Int)
    (bd bd2 rb atk rtk : String) (st2 : Nat) (rest : List HttpEv)
    (hval : needRefresh cfg (nowMs / 1000) = false) :
    (httpOk st2 = false →
      apiGet cfg nowMs
          (HttpEv.resp 401 reset bd :: HttpEv.refreshResp 200 rb atk rtk ei
            :: HttpEv.resp st2 r2 bd2 :: rest)
        = (ApiResult.err ("API error " ++ toString st2 ++ ": " ++ bd2),
           { calls := 2
             refreshCalls := 1
             sleeps := []
             saves := [refreshedCfg cfg atk rtk (nowMs / 1000 + ei)] }, rest))
    ∧ (httpOk st2 = true →
      apiGet cfg nowMs
          (HttpEv.resp 401 reset bd :: HttpEv.refreshResp 200 rb atk rtk ei
            :: HttpEv.resp st2 r2 bd2 :: rest)
        = (ApiResult.ok bd2,
           { calls := 2
             refreshCalls := 1
             sleeps := []
             saves := [refreshedCfg cfg atk rtk (nowMs / 1000 + ei)] }, rest)) := by
  constructor
  · intro hst
    simp [apiGet, apiGetM, ensureValidTokenM, refreshTokenM, hval, hst,
      RunTrace.app, (show httpOk 200 = true from rfl)]
  · intro hst
    simp [apiGet, apiGetM, ensureValidTokenM, refreshTokenM, hval, hst,
      RunTrace.app, (show httpOk 200 = true from rfl)]

/-- Witness for `auth_retry_once`: a 401, a successful refresh, then a
second 401 — the call fails with the status and body of the retry after
exactly one retry. -/
theorem auth_retry_once_witness :
    apiGet { token_expires_at := 0 } 0
        [HttpEv.resp 401 0 "unauthorized",
         HttpEv.refreshResp 200 "" "a2" "r2" 7200,
         HttpEv.resp 401 0 "still unauthorized"]
      = (ApiResult.err ("API error " ++ toString 401 ++ ": " ++ "still unauthorized"),
         { calls := 2
           refreshCalls := 1
           sleeps := []
           saves := [refreshedCfg { token_expires_at := 0 } "a2" "r2"
             ((0 : Int) / 1000 + 7200)] }, []) :=
  (auth_retry_once { token_expires_at := 0 } 0 0 0 7200 "unauthorized"
      "still unauthorized" "" "a2" "r2" 401 [] (by decide)).1 (by decide)

end XTracker
